import Mathlib

/-!
Verification of the n8n-editor expression engine (`src/utils/expressionUtils.ts`,
types from `src/types.ts`) against its natural-language specification.

The engine's own code (schema flattening, block matching and replacement,
context construction, autocomplete catalog, the `formatDate` helper) is
translated function by function.  The one external collaborator is the host
JavaScript expression evaluator (`new Function(...)` applied to the context):
it is not part of this repository, so operations calling it are parameterised
by a function `js : List Char → Except String JSResult` standing for
"compile the cleaned snippet against the context and run it"; `Except.error m`
models a thrown exception with message `m`, and the result type distinguishes
`undefined` from the JSON-like values.
-/

namespace NEd

/-- JSON-like runtime values: the shape of `node.data` and of expression
results.  `obj` fields are listed in the object's own key-insertion order,
as JavaScript `Object.keys` enumerates them. -/
inductive JValue where
  | null
  | bool (b : Bool)
  | num (n : Int)
  | str (s : String)
  | arr (elems : List JValue)
  | obj (fields : List (String × JValue))

/-- JavaScript `typeof` for the values representable as `JValue`
(`typeof null` is `"object"`). -/
def jsTypeof : JValue → String
  | .null => "object"
  | .bool _ => "boolean"
  | .num _ => "number"
  | .str _ => "string"
  | .arr _ => "object"
  | .obj _ => "object"

/-- The `DataType` classification from `flattenObjectToSchema`:
`Array.isArray(value) ? ARRAY : value === null ? NULL :
 typeof value === 'object' ? OBJECT : typeof value`. -/
def dataTypeOf : JValue → String
  | .arr _ => "array"
  | .null => "null"
  | .obj _ => "object"
  | v => jsTypeof v

/-- JSON string escaping for the characters that can appear in our examples. -/
def jsonEscapeChar (c : Char) : List Char :=
  if c = '"' then ['\\', '"']
  else if c = '\\' then ['\\', '\\']
  else if c = '\n' then ['\\', 'n']
  else if c = '\t' then ['\\', 't']
  else if c = '\r' then ['\\', 'r']
  else [c]

/-- JSON quoting of a string. -/
def jsonQuote (s : String) : String :=
  ⟨'"' :: (s.data.flatMap jsonEscapeChar) ++ ['"']⟩

mutual
/-- Compact `JSON.stringify` (no indentation), as used both for object/array
previews in `flattenObjectToSchema` and for object results in
`evaluateExpression`. -/
def jsonStringify : JValue → String
  | .null => "null"
  | .bool b => cond b "true" "false"
  | .num n => toString n
  | .str s => jsonQuote s
  | .arr xs => "[" ++ jsonStringifyArr xs ++ "]"
  | .obj fs => "\x7b" ++ jsonStringifyObj fs ++ "\x7d"

/-- Comma-separated serialization of array elements. -/
def jsonStringifyArr : List JValue → String
  | [] => ""
  | [x] => jsonStringify x
  | x :: y :: rest => jsonStringify x ++ "," ++ jsonStringifyArr (y :: rest)

/-- Comma-separated serialization of object fields. -/
def jsonStringifyObj : List (String × JValue) → String
  | [] => ""
  | [(k, v)] => jsonQuote k ++ ":" ++ jsonStringify v
  | (k, v) :: f :: rest =>
      jsonQuote k ++ ":" ++ jsonStringify v ++ "," ++ jsonStringifyObj (f :: rest)
end

mutual
/-- JavaScript `String(value)` conversion (arrays join their elements with
commas, objects print as `[object Object]`). -/
def jsToString : JValue → String
  | .null => "null"
  | .bool b => cond b "true" "false"
  | .num n => toString n
  | .str s => s
  | .arr xs => jsToStringArr xs
  | .obj _ => "[object Object]"

/-- `Array.prototype.toString`: elements joined by commas, `null` elements
rendered as empty text. -/
def jsToStringArr : List JValue → String
  | [] => ""
  | [x] => jsToStringElem x
  | x :: y :: rest => jsToStringElem x ++ "," ++ jsToStringArr (y :: rest)

/-- One array element inside `Array.prototype.toString`. -/
def jsToStringElem : JValue → String
  | .null => ""
  | v => jsToString v
end

/-- Decimal digits of a natural number, most significant first (the key
strings JavaScript uses for array and string indices). -/
def natKeyAux (n : Nat) : List Char :=
  if _h : n < 10 then [Nat.digitChar n]
  else natKeyAux (n / 10) ++ [Nat.digitChar (n % 10)]
termination_by n
decreasing_by
  exact Nat.div_lt_self (by omega) (by omega)

/-- Decimal representation of a natural number, used for index keys. -/
def natKey (n : Nat) : String := ⟨natKeyAux n⟩

/-- `Object.keys` for the values representable as `JValue`: field names for
objects, index strings for arrays and strings, nothing for primitives. -/
def enumKeys : JValue → List String
  | .obj fs => fs.map Prod.fst
  | .arr xs => (List.range xs.length).map natKey
  | .str s => (List.range s.length).map natKey
  | _ => []

/-- The `VariableSchema` record from `src/types.ts` (the fields the engine
populates; `parentPath`/`children` are never set by it). -/
structure VariableSchema where
  path : String
  key : String
  type : String
  value : JValue
  isExpandable : Bool
  description : Option String
  usage : Option String

/-- `parentPath ? parentPath + '.' + key : key`. -/
def childPath (parentPath key : String) : String :=
  if parentPath ≠ "" then parentPath ++ "." ++ key else key

/-- The `value` field of a descriptor:
`typeof value === 'object' ? JSON.stringify(value).substring(0, 20) + '...' : value`. -/
def previewValue (v : JValue) : JValue :=
  if jsTypeof v = "object" then .str (⟨(jsonStringify v).data.take 20⟩ ++ "...") else v

/-- The descriptor pushed for one key/value entry of `flattenObjectToSchema`. -/
def mkItem (parentPath key : String) (v : JValue) : VariableSchema :=
  { path := childPath parentPath key
    key := key
    type := dataTypeOf v
    value := previewValue v
    isExpandable := dataTypeOf v = "object" ∨ dataTypeOf v = "array"
    description := none
    usage := none }

/-- The walk when the value is a string: its enumerable keys are the
character indices, each character is a one-character string, never recursed. -/
def flattenStrIdx : List Char → Nat → String → List VariableSchema
  | [], _, _ => []
  | c :: rest, i, p => mkItem p (natKey i) (.str ⟨[c]⟩) :: flattenStrIdx rest (i + 1) p

mutual
/-- `flattenObjectToSchema` applied to a (non-undefined) value: the guard
returns `[]` for `null`, otherwise the function walks `Object.keys`,
pushing one descriptor per key and recursing into non-array, non-null
object children. -/
def flattenValue : JValue → String → List VariableSchema
  | .null, _ => []
  | .bool _, _ => []
  | .num _, _ => []
  | .str s, p => flattenStrIdx s.data 0 p
  | .arr xs, p => flattenArrIdx xs 0 p
  | .obj fs, p => flattenFields fs p

/-- The `Object.keys(...).forEach` loop over an object's fields. -/
def flattenFields : List (String × JValue) → String → List VariableSchema
  | [], _ => []
  | (key, v) :: rest, p =>
      mkItem p key v ::
        ((match v with
          | .obj gs => flattenFields gs (childPath p key)
          | _ => []) ++ flattenFields rest p)

/-- The same loop when the walked value is an array (its enumerable keys are
the decimal indices); object elements are still recursed into. -/
def flattenArrIdx : List JValue → Nat → String → List VariableSchema
  | [], _, _ => []
  | v :: rest, i, p =>
      mkItem p (natKey i) v ::
        ((match v with
          | .obj gs => flattenFields gs (childPath p (natKey i))
          | _ => []) ++ flattenArrIdx rest (i + 1) p)
end

/-- `flattenObjectToSchema(obj, parentPath)` from `expressionUtils.ts`;
`none` plays the role of JavaScript `undefined`. -/
def flattenObjectToSchema : Option JValue → String → List VariableSchema
  | none, _ => []
  | some v, p => flattenValue v p

/-- The character `\x7b`, the opening brace of the `EXPRESSION_REGEX` markers. -/
def lb : Char := Char.ofNat 123

/-- The character `\x7d`, the closing brace of the `EXPRESSION_REGEX` markers. -/
def rb : Char := Char.ofNat 125

/-- An ECMAScript LineTerminator: LF, CR, LINE SEPARATOR (U+2028) or
PARAGRAPH SEPARATOR (U+2029) — the characters the regex `.` refuses to
match without the `s` flag. -/
def isLineTerminator (c : Char) : Bool :=
  c = '\n' ∨ c = '\r' ∨ c = Char.ofNat 0x2028 ∨ c = Char.ofNat 0x2029

/-- The lazy group scan of `EXPRESSION_REGEX = /\x7b\x7b(.*?)\x7d\x7d/g`,
positioned just after an opening marker: consume the shortest run of
non-LineTerminator characters up to a closing marker (`.` does not match a
line terminator, so reaching one fails the attempt).  Returns the group
text and the tail after the closing marker. -/
def scanInner : List Char → Option (List Char × List Char)
  | c1 :: c2 :: rest =>
      if c1 = rb ∧ c2 = rb then some ([], rest)
      else if isLineTerminator c1 then none
      else (scanInner (c2 :: rest)).map (fun pr => (c1 :: pr.1, pr.2))
  | _ => none

/-- The leftmost match of `EXPRESSION_REGEX` in a document: the literal text
before the match, the group text, and the tail after the match.  When an
opening marker has no same-line closing marker the regex engine moves on one
position, exactly as this recursion does. -/
def findBlock : List Char → Option (List Char × List Char × List Char)
  | c1 :: c2 :: rest =>
      if c1 = lb ∧ c2 = lb then
        match scanInner rest with
        | some (inner, after) => some ([], inner, after)
        | none => (findBlock (c2 :: rest)).map (fun t => (c1 :: t.1, t.2.1, t.2.2))
      else (findBlock (c2 :: rest)).map (fun t => (c1 :: t.1, t.2.1, t.2.2))
  | _ => none

/-- `scanInner` only ever splits its argument around a closing marker. -/
theorem scanInner_decomp :
    ∀ t inner after, scanInner t = some (inner, after) →
      t = inner ++ rb :: rb :: after := by
  intro t
  induction t with
  | nil => intro inner after h; simp [scanInner] at h
  | cons c1 t ih =>
    intro inner after h
    cases t with
    | nil => simp [scanInner] at h
    | cons c2 rest =>
      rw [scanInner] at h
      split at h
      · rename_i hbb
        simp only [Option.some.injEq, Prod.mk.injEq] at h
        obtain ⟨h1, h2⟩ := h
        subst h1; subst h2
        simp [hbb.1, hbb.2]
      · split at h
        · exact absurd h (by simp)
        · cases hsc : scanInner (c2 :: rest) with
          | none => simp only [hsc, Option.map_none'] at h; exact absurd h (by simp)
          | some pr =>
            obtain ⟨pr1, pr2⟩ := pr
            simp only [hsc, Option.map_some', Option.some.injEq, Prod.mk.injEq] at h
            obtain ⟨h1, h2⟩ := h
            subst h2
            rw [← h1, ih pr1 pr2 hsc]
            simp

/-- `findBlock` only ever splits the document as
`before ++ open ++ inner ++ close ++ after`. -/
theorem findBlock_decomp :
    ∀ doc pre inner after, findBlock doc = some (pre, inner, after) →
      doc = pre ++ lb :: lb :: (inner ++ rb :: rb :: after) := by
  intro doc
  induction doc with
  | nil => intro pre inner after h; simp [findBlock] at h
  | cons c1 t ih =>
    intro pre inner after h
    cases t with
    | nil => simp [findBlock] at h
    | cons c2 rest =>
      rw [findBlock] at h
      split at h
      · rename_i hbb
        cases hsc : scanInner rest with
        | some pr =>
          obtain ⟨i0, a0⟩ := pr
          simp only [hsc, Option.some.injEq, Prod.mk.injEq] at h
          obtain ⟨h1, h2, h3⟩ := h
          subst h1; subst h2; subst h3
          rw [scanInner_decomp rest i0 a0 hsc]
          simp [hbb.1, hbb.2]
        | none =>
          cases hfb : findBlock (c2 :: rest) with
          | none => simp only [hsc, hfb, Option.map_none'] at h; exact absurd h (by simp)
          | some t0 =>
            obtain ⟨t1, t2, t3⟩ := t0
            simp only [hsc, hfb, Option.map_some', Option.some.injEq, Prod.mk.injEq] at h
            obtain ⟨h1, h2, h3⟩ := h
            subst h2; subst h3
            rw [← h1, ih t1 t2 t3 hfb]
            simp
      · cases hfb : findBlock (c2 :: rest) with
        | none => simp only [hfb, Option.map_none'] at h; exact absurd h (by simp)
        | some t0 =>
          obtain ⟨t1, t2, t3⟩ := t0
          simp only [hfb, Option.map_some', Option.some.injEq, Prod.mk.injEq] at h
          obtain ⟨h1, h2, h3⟩ := h
          subst h2; subst h3
          rw [← h1, ih t1 t2 t3 hfb]
          simp

/-- Whether `pat` occurs as a contiguous substring. -/
def hasSub (pat : List Char) : List Char → Bool
  | [] => pat.isPrefixOf []
  | c :: rest => pat.isPrefixOf (c :: rest) || hasSub pat (rest)

/-- Length accounting for a match, used for termination of the global
replacement loop. -/
theorem findBlock_after_len {doc pre inner after : List Char}
    (h : findBlock doc = some (pre, inner, after)) :
    after.length < doc.length := by
  have := findBlock_decomp doc pre inner after h
  subst this
  simp
  omega

/-- `String.prototype.replace` with the global regex and a callback: replace
the leftmost match by `f` applied to its group, then continue after it. -/
def replaceBlocks (f : List Char → List Char) (doc : List Char) : List Char :=
  match hfb : findBlock doc with
  | none => doc
  | some t => t.1 ++ f t.2.1 ++ replaceBlocks f t.2.2
termination_by doc.length
decreasing_by
  exact findBlock_after_len hfb

/-- A document chunk: literal text between matches, or one matched group. -/
inductive Chunk where
  | lit (text : List Char)
  | block (inner : List Char)

/-- The full decomposition of a document into literal text and matched
groups, in order. -/
def decompose (doc : List Char) : List Chunk :=
  match hfb : findBlock doc with
  | none => [.lit doc]
  | some t => .lit t.1 :: .block t.2.1 :: decompose t.2.2
termination_by doc.length
decreasing_by
  exact findBlock_after_len hfb

/-- Reassemble a chunk as it appeared in the source document. -/
def rejoinChunk : Chunk → List Char
  | .lit l => l
  | .block inner => lb :: lb :: (inner ++ [rb, rb])

/-- The result of running a snippet in the host evaluator: JavaScript
`undefined`, or a `JValue`. -/
def JSResult := Option JValue

/-- ASCII whitespace recognised by `String.prototype.trim` in the documents
this model ranges over. -/
def isJsSpace (c : Char) : Bool :=
  c = ' ' ∨ c = '\t' ∨ c = '\n' ∨ c = '\r'

/-- `code.trim()`. -/
def jsTrim (l : List Char) : List Char :=
  ((l.dropWhile isJsSpace).reverse.dropWhile isJsSpace).reverse

/-- `str.replace(/pat/g, rep)` for a fixed non-empty literal pattern:
leftmost, non-overlapping replacement. -/
def replaceSeq (pat rep : List Char) : List Char → List Char
  | [] => []
  | c :: rest =>
      if pat.isPrefixOf (c :: rest) ∧ pat ≠ []
      then rep ++ replaceSeq pat rep ((c :: rest).drop pat.length)
      else c :: replaceSeq pat rep rest
termination_by l => l.length
decreasing_by
  · rename_i hp
    simp only [List.length_drop, List.length_cons]
    have : 0 < pat.length := List.length_pos.mpr hp.2
    omega
  · simp

/-- The snippet cleaning shared by `evaluateExpression` and
`validateSnippet`: `code.trim().replace(/&gt;/g, '>').replace(/&lt;/g, '<')`. -/
def cleanCode (code : List Char) : List Char :=
  replaceSeq "&lt;".data "<".data (replaceSeq "&gt;".data ">".data (jsTrim code))

/-- Result stringification of `evaluateExpression`: `undefined` becomes
empty text, objects are JSON-serialized, anything else is `String(...)`. -/
def renderResult : JSResult → List Char
  | none => []
  | some v => if jsTypeof v = "object" then (jsonStringify v).data else (jsToString v).data

/-- The inline marker substituted for a failing block. -/
def errorMarker (msg : String) : List Char :=
  "[Error: ".data ++ msg.data ++ "]".data

/-- The replacement callback of `evaluateExpression`: clean the group, run
it, stringify the result; on a thrown error substitute the inline marker. -/
def applyBlock (js : List Char → Except String JSResult) (code : List Char) : List Char :=
  match js (cleanCode code) with
  | .ok r => renderResult r
  | .error msg => errorMarker msg

/-- `evaluateExpression(expression, nodes)`: empty input short-circuits to
empty output, otherwise every regex match is replaced via the callback.
The host evaluator (`new Function` over the built context) is the
parameter `js`. -/
def evaluateExpression (js : List Char → Except String JSResult) (expression : List Char) :
    List Char :=
  if expression = [] then [] else replaceBlocks (applyBlock js) expression

/-- The verdict record of `validateSnippet`. -/
structure ValidationResult where
  isValid : Bool
  message : Option String

/-- `validateSnippet(code, context)`: clean the snippet exactly as the
evaluator does, run it, and report success or the error message. -/
def validateSnippet (js : List Char → Except String JSResult) (code : List Char) :
    ValidationResult :=
  match js (cleanCode code) with
  | .ok _ => ⟨true, none⟩
  | .error msg => ⟨false, some msg⟩

/-- How one chunk appears in the evaluator's output. -/
def renderChunk (js : List Char → Except String JSResult) : Chunk → List Char
  | .lit l => l
  | .block inner => applyBlock js inner

/-- A concrete host evaluator for witnesses: over the empty context,
`1+1` evaluates to `2` and the other snippets exercised here throw a
`ReferenceError` whose message is `Bad is not defined`. -/
def jsDemo : List Char → Except String JSResult :=
  fun code => if code = "1+1".data then .ok (some (.num 2)) else .error "Bad is not defined"

/-- A host evaluator over the empty context on which every snippet reached
here throws an unresolved-reference error (as `Bad.ref` does). -/
def jsAllErr : List Char → Except String JSResult :=
  fun _ => .error "Bad is not defined"

/-- Decimal value of a digit string, inverse of `natKeyAux`. -/
def valOfDigits (ds : List Char) : Nat :=
  ds.foldl (fun a c => 10 * a + (c.toNat - 48)) 0

/-- Join a chain of keys onto a parent path, one `childPath` step at a
time — the path every descriptor's `path` field is built by. -/
def pathJoin (p : String) (ks : List String) : String :=
  ks.foldl childPath p

/-- Key chains visited by one flattening pass, in the same order the
descriptors are emitted (one chain per descriptor). -/
def chainsStrIdx : List Char → Nat → List (List String)
  | [], _ => []
  | _ :: rest, i => [natKey i] :: chainsStrIdx rest (i + 1)

mutual
/-- Chains for a value, mirroring `flattenValue`. -/
def chainsValue : JValue → List (List String)
  | .null => []
  | .bool _ => []
  | .num _ => []
  | .str s => chainsStrIdx s.data 0
  | .arr xs => chainsArrIdx xs 0
  | .obj fs => chainsFields fs

/-- Chains for an object's fields, mirroring `flattenFields`. -/
def chainsFields : List (String × JValue) → List (List String)
  | [] => []
  | (k, v) :: rest =>
      ([k] :: (match v with
        | .obj gs => (chainsFields gs).map (fun ks => k :: ks)
        | _ => [])) ++ chainsFields rest

/-- Chains for array elements, mirroring `flattenArrIdx`. -/
def chainsArrIdx : List JValue → Nat → List (List String)
  | [], _ => []
  | v :: rest, i =>
      ([natKey i] :: (match v with
        | .obj gs => (chainsFields gs).map (fun ks => natKey i :: ks)
        | _ => [])) ++ chainsArrIdx rest (i + 1)
end

/-- A key with no dot in it. -/
def dotFreeKey (k : String) : Bool := k.data.all (fun c => c ≠ '.')

/-- Pairwise-distinct string list (JavaScript object keys are unique). -/
def distinctList : List String → Bool
  | [] => true
  | k :: rest => (!rest.contains k) && distinctList rest

mutual
/-- Well-formedness for path uniqueness: every object level has distinct,
dot-free keys. -/
def goodKeys : JValue → Bool
  | .obj fs => distinctList (fs.map Prod.fst) && (fs.map Prod.fst).all dotFreeKey
      && goodFields fs
  | .arr xs => goodElems xs
  | _ => true

/-- `goodKeys` over the values of an object's fields. -/
def goodFields : List (String × JValue) → Bool
  | [] => true
  | (_, v) :: rest => goodKeys v && goodFields rest

/-- `goodKeys` over array elements. -/
def goodElems : List JValue → Bool
  | [] => true
  | v :: rest => goodKeys v && goodElems rest
end

/-- Chains joined by dots, without a parent path. -/
def joinDots : List String → String
  | [] => ""
  | [k] => k
  | k :: k2 :: ks => k ++ "." ++ joinDots (k2 :: ks)

/-- The components JavaScript date accessors return for a valid date
(`month0` is the 0-based `getMonth()`). -/
structure DateParts where
  year : Nat
  month0 : Nat
  day : Nat
  hours : Nat
  minutes : Nat
  seconds : Nat

/-- A `formatDate` argument, modelled by its two observable features: its
JavaScript truthiness (the `!date` guard) and the outcome of `new Date(date)`
(`none` when the host parser yields an Invalid Date).  Date parsing itself
is host-defined and outside this repository. -/
structure JSDateInput where
  falsy : Bool
  parsed : Option DateParts

/-- `('0' + n).slice(-2)`: the last two characters of the zero-prefixed
decimal representation. -/
def pad2 (n : Nat) : String :=
  let s := "0" ++ Nat.repr n
  ⟨s.data.drop (s.data.length - 2)⟩

/-- `formatStr.replace(/YYYY|MM|DD|HH|mm|ss/g, m => map[m])`: scan left to
right, at each position try the alternatives in order, substitute and resume
after the replacement (replacements are never rescanned). -/
def tokenReplace (d : DateParts) : List Char → List Char
  | [] => []
  | c :: rest =>
      if "YYYY".data.isPrefixOf (c :: rest) then
        (Nat.repr d.year).data ++ tokenReplace d ((c :: rest).drop 4)
      else if "MM".data.isPrefixOf (c :: rest) then
        (pad2 (d.month0 + 1)).data ++ tokenReplace d ((c :: rest).drop 2)
      else if "DD".data.isPrefixOf (c :: rest) then
        (pad2 d.day).data ++ tokenReplace d ((c :: rest).drop 2)
      else if "HH".data.isPrefixOf (c :: rest) then
        (pad2 d.hours).data ++ tokenReplace d ((c :: rest).drop 2)
      else if "mm".data.isPrefixOf (c :: rest) then
        (pad2 d.minutes).data ++ tokenReplace d ((c :: rest).drop 2)
      else if "ss".data.isPrefixOf (c :: rest) then
        (pad2 d.seconds).data ++ tokenReplace d ((c :: rest).drop 2)
      else c :: tokenReplace d rest
termination_by l => l.length
decreasing_by all_goals (simp only [List.length_drop, List.length_cons]; omega)

/-- The default `formatStr` parameter of `formatDate`. -/
def defaultDateFormat : String := "YYYY-MM-DD"

/-- `FORMATTERS.formatDate`: falsy input short-circuits to empty text; an
unparseable date yields the sentinel `Invalid Date`; otherwise the tokens
of the pattern are substituted with zero-padded components. -/
def formatDate (d : JSDateInput) (formatStr : String) : String :=
  if d.falsy then ""
  else
    match d.parsed with
    | none => "Invalid Date"
    | some parts => ⟨tokenReplace parts formatStr.data⟩

/-- The JavaScript value `""` as a `formatDate` argument: falsy, and
unparseable (`new Date("")` is an Invalid Date). -/
def emptyStringDate : JSDateInput := ⟨true, none⟩

/-- The keys of the `FORMATTERS` record, in insertion order — the order
`Object.keys(FORMATTERS)` enumerates. -/
def formatterNames : List String :=
  ["toUpper", "toLower", "truncate", "formatDate", "now",
   "formatCurrency", "round", "json", "join", "length"]

/-- The `FUNCTION_METADATA` record: name, description, usage template. -/
def FUNCTION_METADATA : List (String × String × String) :=
  [("toUpper", "Converts a string to uppercase.", "toUpper(value)"),
   ("toLower", "Converts a string to lowercase.", "toLower(value)"),
   ("truncate", "Truncates a string to a specified length.", "truncate(value, 10)"),
   ("formatDate", "Formats a date string or object.", "formatDate(value, 'YYYY-MM-DD')"),
   ("now", "Returns the current date and time.", "now()"),
   ("formatCurrency", "Formats a number as currency.", "formatCurrency(100, 'USD')"),
   ("round", "Rounds a number to specified decimal places.", "round(10.555, 2)"),
   ("json", "Stringifies an object/array to JSON.", "json(value)"),
   ("join", "Joins array elements into a string.", "join(value, ', ')"),
   ("length", "Returns the length of a string or array.", "length(value)")]

/-- `FUNCTION_METADATA[fnName]` lookup. -/
def metadataFor (fn : String) : Option (String × String) :=
  (FUNCTION_METADATA.find? (fun e => e.1 = fn)).map (fun e => e.2)

/-- The descriptor built for one built-in function in
`generateAutocompleteOptions`. -/
def functionDescriptor (fn : String) : VariableSchema :=
  { path := fn
    key := fn
    type := "function"
    value := .str "Function"
    isExpandable := false
    description := some (((metadataFor fn).map Prod.fst).getD "Built-in helper function")
    usage := some (((metadataFor fn).map Prod.snd).getD (fn ++ "(...)")) }

/-- The `WorkflowNode` record from `src/types.ts`. -/
structure WorkflowNode where
  id : String
  name : String
  type : String
  data : JValue

/-- The per-variable enrichment `generateAutocompleteOptions` applies to
the flattener's output (spread plus description and usage). -/
def enrichVariable (v : VariableSchema) : VariableSchema :=
  { path := v.path
    key := v.key
    type := v.type
    value := v.value
    isExpandable := v.isExpandable
    description := some (if jsTypeof v.value = "object" then "Object/Array Variable"
      else "Current Value: " ++ ⟨(jsToString v.value).data.take 50⟩)
    usage := some ("\x7b\x7b " ++ v.path ++ " \x7d\x7d") }

/-- `generateAutocompleteOptions(nodes)`: built-in function descriptors
first, then the enriched flattener output of every node in input order. -/
def generateAutocompleteOptions (nodes : List WorkflowNode) : List VariableSchema :=
  (formatterNames.map functionDescriptor) ++
    ((nodes.flatMap (fun node => flattenObjectToSchema (some node.data) node.name)).map
      enrichVariable)

/-- A value bound in the evaluation context: a node's data or a built-in
function implementation (identified by its name). -/
inductive CtxVal where
  | data (v : JValue)
  | fn (name : String)

/-- JavaScript property assignment `obj[k] = v`: overwrite in place if the
key exists, else append (insertion order preserved). -/
def setProp (ctx : List (String × CtxVal)) (k : String) (v : CtxVal) :
    List (String × CtxVal) :=
  if ctx.any (fun kv => kv.1 = k) then
    ctx.map (fun kv => if kv.1 = k then (k, v) else kv)
  else ctx ++ [(k, v)]

/-- Property lookup `obj[k]`. -/
def getProp (ctx : List (String × CtxVal)) (k : String) : Option CtxVal :=
  (ctx.find? (fun kv => kv.1 = k)).map Prod.snd

/-- `buildEvaluationContext(nodes)`: bind every node's name to its data,
then `Object.assign` every `FORMATTERS` entry over the result. -/
def buildEvaluationContext (nodes : List WorkflowNode) : List (String × CtxVal) :=
  formatterNames.foldl (fun ctx fn => setProp ctx fn (.fn fn))
    (nodes.foldl (fun ctx node => setProp ctx node.name (.data node.data)) [])

/-!
## Verification of the claims
-/

/-- A matched group never contains a line terminator (the lazy `.` cannot
cross one), and no closing marker starts inside the group or at its last
character (the group ends at the first closing marker). -/
theorem scanInner_inv :
    ∀ t inner after, scanInner t = some (inner, after) →
      (∀ c ∈ inner, isLineTerminator c = false) ∧
        hasSub [rb, rb] (inner ++ [rb]) = false := by
  intro t
  induction t with
  | nil => intro inner after h; simp [scanInner] at h
  | cons c1 t ih =>
    intro inner after h
    cases t with
    | nil => simp [scanInner] at h
    | cons c2 rest =>
      rw [scanInner] at h
      split at h
      · simp only [Option.some.injEq, Prod.mk.injEq] at h
        obtain ⟨h1, _⟩ := h
        subst h1
        constructor
        · simp
        · simp [hasSub, List.isPrefixOf]
      · split at h
        · exact absurd h (by simp)
        · rename_i hbb hnl
          cases hsc : scanInner (c2 :: rest) with
          | none => simp only [hsc, Option.map_none'] at h; exact absurd h (by simp)
          | some pr =>
            obtain ⟨pr1, pr2⟩ := pr
            simp only [hsc, Option.map_some', Option.some.injEq, Prod.mk.injEq] at h
            obtain ⟨h1, h2⟩ := h
            subst h2
            obtain ⟨ihnl, ihbb⟩ := ih pr1 pr2 hsc
            constructor
            · rw [← h1]
              intro c hmem
              rcases List.mem_cons.mp hmem with hc | hc
              · subst hc
                exact Bool.eq_false_iff.mpr hnl
              · exact ihnl c hc
            · rw [← h1]
              simp only [List.cons_append, hasSub, Bool.or_eq_false_iff]
              refine ⟨?_, ihbb⟩
              by_cases hc1 : c1 = rb
              · subst hc1
                have hc2 : c2 ≠ rb := fun hc2 => hbb ⟨rfl, hc2⟩
                have hdec := scanInner_decomp (c2 :: rest) pr1 pr2 hsc
                cases pr1 with
                | nil =>
                  exact absurd (List.head_eq_of_cons_eq hdec) hc2
                | cons d ds =>
                  have hd : c2 = d := List.head_eq_of_cons_eq hdec
                  simp only [List.cons_append, List.isPrefixOf, Bool.and_eq_false_iff]
                  right
                  simp [← hd]
                  exact fun hh => hc2 hh.symm
              · simp only [List.isPrefixOf, Bool.and_eq_false_iff]
                left
                simp
                exact fun hh => absurd hh.symm hc1

/-- Conversely, a group free of line terminators with no internal closing
marker is scanned back exactly, whatever follows the closing marker. -/
theorem scanInner_stable :
    ∀ inner, (∀ c ∈ inner, isLineTerminator c = false) →
      hasSub [rb, rb] (inner ++ [rb]) = false →
      ∀ r, scanInner (inner ++ rb :: rb :: r) = some (inner, r) := by
  intro inner
  induction inner with
  | nil =>
    intro _ _ r
    simp [scanInner]
  | cons c i' ih =>
    intro hnl hbb r
    simp only [List.cons_append, hasSub, Bool.or_eq_false_iff] at hbb
    obtain ⟨hpre, hrest⟩ := hbb
    have hnlc : isLineTerminator c = false := hnl c (by simp)
    have hnl' : ∀ c' ∈ i', isLineTerminator c' = false :=
      fun c' hm => hnl c' (List.mem_cons_of_mem _ hm)
    cases i' with
    | nil =>
      have hc : c ≠ rb := fun hh => by simp [List.isPrefixOf, hh] at hpre
      simp only [List.nil_append, List.cons_append]
      rw [scanInner, scanInner]
      simp [hc, hnlc]
    | cons d i'' =>
      have hcd : ¬(c = rb ∧ d = rb) := by
        intro ⟨hc, hd⟩
        subst hc; subst hd
        simp [List.isPrefixOf] at hpre
      have := ih hnl' hrest r
      simp only [List.cons_append]
      rw [scanInner]
      simp only [List.cons_append] at this
      simp [hcd, hnlc, this]

/-- A document consisting of exactly one well-formed block is matched as
that block, with empty text before and the tail after. -/
theorem findBlock_wrap (inner : List Char)
    (hnl : ∀ c ∈ inner, isLineTerminator c = false)
    (hbb : hasSub [rb, rb] (inner ++ [rb]) = false) (r : List Char) :
    findBlock (lb :: lb :: (inner ++ rb :: rb :: r)) = some ([], inner, r) := by
  rw [findBlock]
  simp [scanInner_stable inner hnl hbb r]

/-- Every group matched anywhere in a document is free of line terminators
and contains no closing marker (nor ends just before one). -/
theorem findBlock_inv :
    ∀ doc pre inner after, findBlock doc = some (pre, inner, after) →
      (∀ c ∈ inner, isLineTerminator c = false) ∧
        hasSub [rb, rb] (inner ++ [rb]) = false := by
  intro doc
  induction doc with
  | nil => intro pre inner after h; simp [findBlock] at h
  | cons c1 t ih =>
    intro pre inner after h
    cases t with
    | nil => simp [findBlock] at h
    | cons c2 rest =>
      rw [findBlock] at h
      split at h
      · cases hsc : scanInner rest with
        | some pr =>
          obtain ⟨i0, a0⟩ := pr
          simp only [hsc, Option.some.injEq, Prod.mk.injEq] at h
          obtain ⟨_, h2, _⟩ := h
          subst h2
          exact scanInner_inv rest i0 a0 hsc
        | none =>
          cases hfb : findBlock (c2 :: rest) with
          | none => simp only [hsc, hfb, Option.map_none'] at h; exact absurd h (by simp)
          | some t0 =>
            obtain ⟨t1, t2, t3⟩ := t0
            simp only [hsc, hfb, Option.map_some', Option.some.injEq, Prod.mk.injEq] at h
            obtain ⟨_, h2, h3⟩ := h
            subst h2; subst h3
            exact ih t1 t2 t3 hfb
      · cases hfb : findBlock (c2 :: rest) with
        | none => simp only [hfb, Option.map_none'] at h; exact absurd h (by simp)
        | some t0 =>
          obtain ⟨t1, t2, t3⟩ := t0
          simp only [hfb, Option.map_some', Option.some.injEq, Prod.mk.injEq] at h
          obtain ⟨_, h2, h3⟩ := h
          subst h2; subst h3
          exact ih t1 t2 t3 hfb

/-- The decomposition reassembles to the original document: all literal text
is accounted for, in order. -/
theorem decompose_rejoin (doc : List Char) :
    (decompose doc).flatMap rejoinChunk = doc := by
  induction doc using decompose.induct with
  | case1 doc hfb => rw [decompose, hfb]; simp [rejoinChunk]
  | case2 doc t hfb ih =>
    obtain ⟨pre, inner, after⟩ := t
    rw [decompose, hfb]
    simp only [List.flatMap_cons, rejoinChunk, ih]
    rw [findBlock_decomp doc pre inner after hfb]
    simp

/-- The global replacement is exactly the chunkwise map-and-join over the
decomposition. -/
theorem replaceBlocks_decompose (f : List Char → List Char) (doc : List Char) :
    replaceBlocks f doc =
      (decompose doc).flatMap (fun ch => match ch with
        | .lit l => l
        | .block inner => f inner) := by
  induction doc using decompose.induct with
  | case1 doc hfb =>
    rw [decompose, hfb, replaceBlocks, hfb]
    simp
  | case2 doc t hfb ih =>
    obtain ⟨pre, inner, after⟩ := t
    rw [decompose, hfb, replaceBlocks, hfb]
    simp [ih]

/-- Every matched group in the decomposition carries the scan invariants. -/
theorem decompose_block_inv :
    ∀ doc inner, Chunk.block inner ∈ decompose doc →
      (∀ c ∈ inner, isLineTerminator c = false) ∧
        hasSub [rb, rb] (inner ++ [rb]) = false := by
  intro doc
  induction doc using decompose.induct with
  | case1 doc hfb =>
    intro inner hmem
    rw [decompose, hfb] at hmem
    simp at hmem
  | case2 doc t hfb ih =>
    obtain ⟨pre, i0, after⟩ := t
    intro inner hmem
    rw [decompose, hfb] at hmem
    rcases List.mem_cons.mp hmem with hc | hc
    · simp at hc
    · rcases List.mem_cons.mp hc with hc2 | hc2
      · have : i0 = inner := by injection hc2.symm
        subst this
        exact findBlock_inv doc pre i0 after hfb
      · exact ih inner hc2

/-- Unfolding step of `decompose` at a match. -/
theorem decompose_step {doc pre inner after : List Char}
    (h : findBlock doc = some (pre, inner, after)) :
    decompose doc = .lit pre :: .block inner :: decompose after := by
  rw [decompose, h]

/-- Unfolding step of `decompose` without a match. -/
theorem decompose_none {doc : List Char} (h : findBlock doc = none) :
    decompose doc = [.lit doc] := by
  rw [decompose, h]

/-- Unfolding step of `replaceBlocks` at a match. -/
theorem replaceBlocks_step (f : List Char → List Char) {doc pre inner after : List Char}
    (h : findBlock doc = some (pre, inner, after)) :
    replaceBlocks f doc = pre ++ f inner ++ replaceBlocks f after := by
  rw [replaceBlocks, h]

/-- Unfolding step of `replaceBlocks` without a match. -/
theorem replaceBlocks_none (f : List Char → List Char) {doc : List Char}
    (h : findBlock doc = none) :
    replaceBlocks f doc = doc := by
  rw [replaceBlocks, h]

/-- A single well-formed block evaluated alone yields exactly its callback
result. -/
theorem evaluate_single_block (js : List Char → Except String JSResult)
    (inner : List Char) (hnl : ∀ c ∈ inner, isLineTerminator c = false)
    (hbb : hasSub [rb, rb] (inner ++ [rb]) = false) :
    evaluateExpression js (rejoinChunk (.block inner)) = applyBlock js inner := by
  have hwrap := findBlock_wrap inner hnl hbb []
  rw [rejoinChunk, evaluateExpression]
  have hne : lb :: lb :: (inner ++ [rb, rb]) ≠ [] := by simp
  rw [if_neg hne]
  have : inner ++ [rb, rb] = inner ++ rb :: rb :: [] := by simp
  rw [this, replaceBlocks_step _ hwrap, replaceBlocks_none _ (by decide)]
  simp

/-- C1: for every host evaluator and every document, `evaluateExpression`
(a) accounts for all literal text outside blocks unchanged (the
decomposition rejoins to the document), (b) equals the independent
chunkwise rendering of the decomposition — so each block's result depends
on that block alone, (c) renders every matched block to the same output the
block would produce evaluated alone in its own document, and (d) substitutes
exactly the inline `[Error: <message>]` marker for a block whose snippet
throws.  Being a total function, it lets no exception escape. -/
theorem C1_evaluate_fault_isolation (js : List Char → Except String JSResult)
    (doc : List Char) :
    (decompose doc).flatMap rejoinChunk = doc ∧
    evaluateExpression js doc = (decompose doc).flatMap (renderChunk js) ∧
    (∀ inner, Chunk.block inner ∈ decompose doc →
      evaluateExpression js (rejoinChunk (.block inner)) = renderChunk js (.block inner)) ∧
    (∀ inner msg, Chunk.block inner ∈ decompose doc →
      js (cleanCode inner) = .error msg →
      renderChunk js (.block inner) = errorMarker msg) := by
  refine ⟨decompose_rejoin doc, ?_, ?_, ?_⟩
  · by_cases hd : doc = []
    · subst hd
      rw [evaluateExpression, if_pos rfl, decompose_none (by decide)]
      simp [renderChunk]
    · rw [evaluateExpression, if_neg hd, replaceBlocks_decompose]
      apply List.flatMap_congr
      intro ch _
      cases ch <;> simp [renderChunk]
  · intro inner hmem
    obtain ⟨hnl, hbb⟩ := decompose_block_inv doc inner hmem
    rw [evaluate_single_block js inner hnl hbb]
    simp [renderChunk]
  · intro inner msg _ herr
    simp [renderChunk, applyBlock, herr]

/-- Witness for C1 on the spec's own example document. -/
theorem C1_evaluate_fault_isolation_witness :
    evaluateExpression jsDemo "\x7b\x7b 1+1 \x7d\x7d and \x7b\x7b Bad.ref \x7d\x7d".data
      = "2 and [Error: Bad is not defined]".data ∧
    Chunk.block " Bad.ref ".data ∈
      decompose "\x7b\x7b 1+1 \x7d\x7d and \x7b\x7b Bad.ref \x7d\x7d".data ∧
    renderChunk jsDemo (Chunk.block " Bad.ref ".data) = errorMarker "Bad is not defined" := by
  have h := C1_evaluate_fault_isolation jsDemo
    "\x7b\x7b 1+1 \x7d\x7d and \x7b\x7b Bad.ref \x7d\x7d".data
  have f1 : findBlock "\x7b\x7b 1+1 \x7d\x7d and \x7b\x7b Bad.ref \x7d\x7d".data =
      some ([], " 1+1 ".data, " and \x7b\x7b Bad.ref \x7d\x7d".data) := by decide
  have f2 : findBlock " and \x7b\x7b Bad.ref \x7d\x7d".data =
      some (" and ".data, " Bad.ref ".data, []) := by decide
  have hd : decompose "\x7b\x7b 1+1 \x7d\x7d and \x7b\x7b Bad.ref \x7d\x7d".data =
      [.lit [], .block " 1+1 ".data, .lit " and ".data, .block " Bad.ref ".data, .lit []] := by
    rw [decompose_step f1, decompose_step f2, decompose_none (by decide)]
  have hmem : Chunk.block " Bad.ref ".data ∈
      decompose "\x7b\x7b 1+1 \x7d\x7d and \x7b\x7b Bad.ref \x7d\x7d".data := by
    rw [hd]; simp
  have hclean1 : cleanCode " 1+1 ".data = "1+1".data := by
    simp +decide [cleanCode, jsTrim, replaceSeq, isJsSpace]
  have hclean2 : cleanCode " Bad.ref ".data = "Bad.ref".data := by
    simp +decide [cleanCode, jsTrim, replaceSeq, isJsSpace]
  have e1 : applyBlock jsDemo " 1+1 ".data = "2".data := by
    rw [applyBlock, hclean1]
    simp +decide [jsDemo, renderResult, jsTypeof, jsToString]
  have e2 : applyBlock jsDemo " Bad.ref ".data = errorMarker "Bad is not defined" := by
    rw [applyBlock, hclean2]
    simp +decide [jsDemo]
  refine ⟨?_, hmem, h.2.2.2 " Bad.ref ".data "Bad is not defined" hmem ?_⟩
  · rw [h.2.1, hd]
    simp only [List.flatMap_cons, List.flatMap_nil, renderChunk, e1, e2]
    decide
  · rw [hclean2]
    simp +decide [jsDemo]

/-- A `hasSub` hit at the very front of the text. -/
theorem hasSub_of_isPrefixOf {pat l : List Char} (h : pat.isPrefixOf l = true) :
    hasSub pat l = true := by
  cases l with
  | nil =>
    cases pat with
    | nil => simp [hasSub, List.isPrefixOf]
    | cons c cs => simp [List.isPrefixOf] at h
  | cons c rest => simp [hasSub, h]

/-- The error marker always contains the `[Error:` fragment. -/
theorem hasSub_errorMarker (msg : String) :
    hasSub "[Error:".data (errorMarker msg) = true := by
  apply hasSub_of_isPrefixOf
  show ("[Error:".data).isPrefixOf ("[Error: ".data ++ msg.data ++ "]".data) = true
  simp +decide [List.isPrefixOf]

/-- C2 counterexample: for the snippet `Bad.ref\n` (failing under any
context), wrapping it in markers yields a document the non-greedy,
single-line regex never matches, so `evaluate` returns it verbatim with no
`[Error: ...]` marker — yet `validate` reports it invalid.  The claim's
consistency property fails for snippets containing a newline (and likewise
for snippets containing `\x7d\x7d`). -/
theorem C2_counterexample :
    evaluateExpression jsAllErr "\x7b\x7bBad.ref\n\x7d\x7d".data =
      "\x7b\x7bBad.ref\n\x7d\x7d".data ∧
    hasSub "[Error:".data
      (evaluateExpression jsAllErr "\x7b\x7bBad.ref\n\x7d\x7d".data) = false ∧
    (validateSnippet jsAllErr "Bad.ref\n".data).isValid = false := by
  have hfb : findBlock "\x7b\x7bBad.ref\n\x7d\x7d".data = none := by decide
  have he : evaluateExpression jsAllErr "\x7b\x7bBad.ref\n\x7d\x7d".data =
      "\x7b\x7bBad.ref\n\x7d\x7d".data := by
    rw [evaluateExpression, if_neg (by decide), replaceBlocks_none _ hfb]
  refine ⟨he, ?_, ?_⟩
  · rw [he]; decide
  · simp [validateSnippet, jsAllErr]

/-- C2 amended: the validator and the evaluator agree on every snippet whose
wrapped form round-trips through the block matcher — snippets containing no
ECMAScript line terminator (LF, CR, U+2028, U+2029) and no closing marker
inside (nor a trailing `\x7d`): if
`evaluate("\x7b\x7b" + s + "\x7d\x7d")` shows no `[Error:` marker, then
`validate(s)` holds. -/
theorem C2_validate_agrees_evaluate (js : List Char → Except String JSResult)
    (s : List Char) (hnl : ∀ c ∈ s, isLineTerminator c = false)
    (hbb : hasSub [rb, rb] (s ++ [rb]) = false) :
    hasSub "[Error:".data (evaluateExpression js (lb :: lb :: (s ++ [rb, rb]))) = false →
    (validateSnippet js s).isValid = true := by
  intro hno
  cases hjs : js (cleanCode s) with
  | ok r => simp [validateSnippet, hjs]
  | error msg =>
    exfalso
    have heval : evaluateExpression js (lb :: lb :: (s ++ [rb, rb])) = errorMarker msg := by
      have hsingle := evaluate_single_block js s hnl hbb
      rw [rejoinChunk] at hsingle
      rw [hsingle, applyBlock, hjs]
    rw [heval, hasSub_errorMarker msg] at hno
    simp at hno

/-- Witness for the amended C2 at the snippet `1+1`. -/
theorem C2_validate_agrees_evaluate_witness :
    (∀ c ∈ "1+1".data, isLineTerminator c = false) ∧
    hasSub [rb, rb] ("1+1".data ++ [rb]) = false ∧
    (validateSnippet jsDemo "1+1".data).isValid = true := by
  refine ⟨by decide, by decide, ?_⟩
  apply C2_validate_agrees_evaluate jsDemo "1+1".data (by decide) (by decide)
  have hwrap : findBlock (lb :: lb :: ("1+1".data ++ [rb, rb])) =
      some ([], "1+1".data, []) := by decide
  rw [evaluateExpression, if_neg (by decide), replaceBlocks_step _ hwrap,
    replaceBlocks_none _ (by decide)]
  have hclean : cleanCode "1+1".data = "1+1".data := by
    simp +decide [cleanCode, jsTrim, replaceSeq, isJsSpace]
  rw [applyBlock, hclean]
  simp +decide [jsDemo, renderResult, jsTypeof, jsToString]

/-- `hasSub` is monotone along the tail. -/
theorem hasSub_tail {pat : List Char} {c : Char} {rest : List Char}
    (h : hasSub pat (c :: rest) = false) : hasSub pat rest = false := by
  rw [hasSub] at h
  exact (Bool.or_eq_false_iff.mp h).2

/-- If a span's body contains a newline before any closing marker, the lazy
single-line scan fails on it. -/
theorem scanInner_none_newline :
    ∀ s : List Char, '\n' ∈ s → hasSub [rb, rb] s = false →
      scanInner (s ++ [rb, rb]) = none := by
  intro s
  induction s with
  | nil => intro hnl _; simp at hnl
  | cons c s' ih =>
    intro hnl hbb
    rw [hasSub] at hbb
    obtain ⟨hpre, hrest⟩ := Bool.or_eq_false_iff.mp hbb
    cases s' with
    | nil =>
      have hc : c = '\n' := (by simpa using hnl : '\n' = c).symm
      subst hc
      simp only [List.nil_append, List.cons_append]
      rw [scanInner]
      simp +decide
    | cons d s'' =>
      simp only [List.cons_append]
      rw [scanInner]
      have hcd : ¬(c = rb ∧ d = rb) := by
        intro ⟨hc, hd⟩
        subst hc; subst hd
        simp [List.isPrefixOf] at hpre
      by_cases hlt : isLineTerminator c = true
      · simp [hcd, hlt]
      · have hc : c ≠ '\n' := by
          intro hh
          rw [hh] at hlt
          exact hlt (by decide)
        have hnl' : '\n' ∈ d :: s'' := by
          rcases List.mem_cons.mp hnl with hh | hh
          · exact absurd hh.symm hc
          · exact hh
        have := ih hnl' hrest
        simp only [List.cons_append] at this
        simp [hcd, hlt, this]

/-- A region containing no opening marker, followed by the document's own
closing pair, contains no match at all. -/
theorem findBlock_none_no_open :
    ∀ s : List Char, hasSub [lb, lb] s = false →
      findBlock (s ++ [rb, rb]) = none := by
  intro s
  induction s with
  | nil =>
    intro _
    rw [List.nil_append, findBlock]
    simp +decide [findBlock]
  | cons c s' ih =>
    intro hll
    rw [hasSub] at hll
    obtain ⟨hpre, hrest⟩ := Bool.or_eq_false_iff.mp hll
    have htail := ih hrest
    cases s' with
    | nil =>
      simp only [List.nil_append, List.cons_append]
      rw [findBlock]
      have hc : ¬(c = lb ∧ rb = lb) := by intro ⟨_, hh⟩; exact absurd hh (by decide)
      simp only [List.nil_append] at htail
      simp [hc, htail]
    | cons d s'' =>
      simp only [List.cons_append]
      rw [findBlock]
      have hcd : ¬(c = lb ∧ d = lb) := by
        intro ⟨hc, hd⟩
        subst hc; subst hd
        simp [List.isPrefixOf] at hpre
      simp only [List.cons_append] at htail
      simp [hcd, htail]

/-- A wrapped span whose body holds a newline (and no stray markers) is not
matched anywhere. -/
theorem findBlock_none_newline_block (s : List Char) (hnl : '\n' ∈ s)
    (hbb : hasSub [rb, rb] s = false) (hll : hasSub [lb, lb] s = false) :
    findBlock (lb :: lb :: (s ++ [rb, rb])) = none := by
  have hscan := scanInner_none_newline s hnl hbb
  have hnoopen := findBlock_none_no_open s hll
  cases s with
  | nil => simp at hnl
  | cons c s' =>
    rw [findBlock]
    simp only [and_self, if_pos rfl, List.cons_append] at *
    rw [hscan]
    by_cases hc : c = lb
    · subst hc
      rw [findBlock]
      have hscan' : scanInner (s' ++ [rb, rb]) = none := by
        have hnl' : '\n' ∈ s' := by
          rcases List.mem_cons.mp hnl with hh | hh
          · exact absurd hh.symm (by decide)
          · exact hh
        exact scanInner_none_newline s' hnl' (hasSub_tail hbb)
      simp only [and_self, if_pos rfl]
      rw [hscan']
      rw [hnoopen]
      simp
    · rw [findBlock]
      have hcl : ¬(lb = lb ∧ c = lb) := fun hh => hc hh.2
      rw [if_neg hcl, hnoopen]
      simp

/-- C10: the evaluator only substitutes spans whose inner text lies on one
line.  (a) Every matched group is newline-free; (b) a wrapped span whose
body contains a newline (and no stray `\x7b\x7b`/`\x7d\x7d` marker pairs of
its own) is never matched: the whole document is returned verbatim,
unevaluated and unchanged, for every host evaluator. -/
theorem C10_single_line_blocks :
    (∀ doc pre inner after : List Char,
      findBlock doc = some (pre, inner, after) → '\n' ∉ inner) ∧
    (∀ (js : List Char → Except String JSResult) (s : List Char),
      '\n' ∈ s → hasSub [rb, rb] s = false → hasSub [lb, lb] s = false →
      evaluateExpression js (lb :: lb :: (s ++ [rb, rb])) =
        lb :: lb :: (s ++ [rb, rb])) := by
  constructor
  · intro doc pre inner after h
    intro hmem
    have := (findBlock_inv doc pre inner after h).1 '\n' hmem
    rw [show isLineTerminator '\n' = true from by decide] at this
    exact absurd this (by decide)
  · intro js s hnl hbb hll
    rw [evaluateExpression, if_neg (by simp),
      replaceBlocks_none _ (findBlock_none_newline_block s hnl hbb hll)]

/-- Witness for C10: the document `\x7b\x7ba\x7d\x7d` matches with the
newline-free group `a`, while the span body `a\nb` is returned verbatim. -/
theorem C10_single_line_blocks_witness :
    findBlock "\x7b\x7ba\x7d\x7d".data = some ([], "a".data, []) ∧
    '\n' ∉ "a".data ∧
    evaluateExpression jsAllErr (lb :: lb :: ("a\nb".data ++ [rb, rb])) =
      lb :: lb :: ("a\nb".data ++ [rb, rb]) := by
  have hfb : findBlock "\x7b\x7ba\x7d\x7d".data = some ([], "a".data, []) := by decide
  exact ⟨hfb, C10_single_line_blocks.1 _ _ _ _ hfb,
    C10_single_line_blocks.2 jsAllErr "a\nb".data (by decide) (by decide) (by decide)⟩

/-- Digit characters code their value. -/
theorem digitChar_toNat {m : Nat} (h : m < 10) : (Nat.digitChar m).toNat = 48 + m := by
  interval_cases m <;> decide

/-- `natKeyAux` is inverted by `valOfDigits`. -/
theorem valOfDigits_natKeyAux : ∀ n, valOfDigits (natKeyAux n) = n := by
  intro n
  induction n using natKeyAux.induct with
  | case1 n h =>
    rw [natKeyAux, dif_pos h]
    simp [valOfDigits, digitChar_toNat h]
  | case2 n h ih =>
    rw [natKeyAux, dif_neg h]
    rw [valOfDigits, List.foldl_append]
    rw [valOfDigits] at ih
    simp only [List.foldl_cons, List.foldl_nil, ih]
    rw [digitChar_toNat (by omega)]
    omega

/-- Distinct indices have distinct decimal keys. -/
theorem natKey_injective : Function.Injective natKey := by
  intro m n h
  have : natKeyAux m = natKeyAux n := congrArg String.data h
  calc m = valOfDigits (natKeyAux m) := (valOfDigits_natKeyAux m).symm
    _ = valOfDigits (natKeyAux n) := by rw [this]
    _ = n := valOfDigits_natKeyAux n

/-- Decimal keys contain no dot. -/
theorem natKeyAux_no_dot : ∀ n, ∀ c ∈ natKeyAux n, c ≠ '.' := by
  intro n
  induction n using natKeyAux.induct with
  | case1 n h =>
    rw [natKeyAux, dif_pos h]
    intro c hc
    simp at hc
    subst hc
    interval_cases n <;> decide
  | case2 n h ih =>
    rw [natKeyAux, dif_neg h]
    intro c hc
    rcases List.mem_append.mp hc with hm | hm
    · exact ih c hm
    · simp at hm
      subst hm
      have h10 : n % 10 < 10 := Nat.mod_lt _ (by omega)
      revert h10
      generalize n % 10 = m
      intro h10
      interval_cases m <;> decide

/-- One step of `pathJoin`. -/
theorem pathJoin_cons (p : String) (k : String) (ks : List String) :
    pathJoin p (k :: ks) = pathJoin (childPath p k) ks := rfl

/-- Prepending a key to every chain composes with `pathJoin`. -/
theorem pathJoin_comp (p k : String) :
    (pathJoin p ∘ fun ks => k :: ks) = pathJoin (childPath p k) :=
  funext fun _ => rfl

/-- The descriptor paths of a field walk are exactly the key chains joined
onto the parent path. -/
theorem flattenFields_paths :
    ∀ fs p, (flattenFields fs p).map (fun d => d.path) =
      (chainsFields fs).map (pathJoin p) := by
  intro fs p
  induction fs, p using flattenFields.induct with
  | case1 p => simp [flattenFields, chainsFields]
  | case2 k v rest p ihv ihrest =>
    cases v with
    | obj gs =>
      simp only at ihv
      simp [flattenFields, chainsFields, List.map_map, pathJoin_comp,
        mkItem, pathJoin, ihv, ihrest]
    | null => simp [flattenFields, chainsFields, mkItem, pathJoin, ihrest]
    | bool b => simp [flattenFields, chainsFields, mkItem, pathJoin, ihrest]
    | num n => simp [flattenFields, chainsFields, mkItem, pathJoin, ihrest]
    | str s => simp [flattenFields, chainsFields, mkItem, pathJoin, ihrest]
    | arr xs => simp [flattenFields, chainsFields, mkItem, pathJoin, ihrest]

/-- The descriptor paths of an array walk are the index chains joined onto
the parent path. -/
theorem flattenArrIdx_paths :
    ∀ xs i p, (flattenArrIdx xs i p).map (fun d => d.path) =
      (chainsArrIdx xs i).map (pathJoin p) := by
  intro xs
  induction xs with
  | nil => intro i p; simp [flattenArrIdx, chainsArrIdx]
  | cons v rest ih =>
    intro i p
    cases v with
    | obj gs =>
      simp [flattenArrIdx, chainsArrIdx, List.map_map, pathJoin_comp, mkItem,
        pathJoin, flattenFields_paths gs (childPath p (natKey i)), ih (i + 1) p]
    | null => simp [flattenArrIdx, chainsArrIdx, mkItem, pathJoin, ih (i + 1) p]
    | bool b => simp [flattenArrIdx, chainsArrIdx, mkItem, pathJoin, ih (i + 1) p]
    | num n => simp [flattenArrIdx, chainsArrIdx, mkItem, pathJoin, ih (i + 1) p]
    | str s => simp [flattenArrIdx, chainsArrIdx, mkItem, pathJoin, ih (i + 1) p]
    | arr ys => simp [flattenArrIdx, chainsArrIdx, mkItem, pathJoin, ih (i + 1) p]

/-- The descriptor paths of a string-index walk. -/
theorem flattenStrIdx_paths :
    ∀ cs i p, (flattenStrIdx cs i p).map (fun d => d.path) =
      (chainsStrIdx cs i).map (pathJoin p) := by
  intro cs
  induction cs with
  | nil => intro i p; simp [flattenStrIdx, chainsStrIdx]
  | cons c rest ih =>
    intro i p
    simp [flattenStrIdx, chainsStrIdx, mkItem, pathJoin, ih (i + 1) p]

/-- The descriptor paths of a full flattening pass are the value's key
chains joined onto the parent path. -/
theorem flattenValue_paths (v : JValue) (p : String) :
    (flattenValue v p).map (fun d => d.path) = (chainsValue v).map (pathJoin p) := by
  cases v with
  | null => rw [flattenValue, chainsValue]; simp
  | bool b => rw [flattenValue, chainsValue]; simp
  | num n => rw [flattenValue, chainsValue]; simp
  | str s => rw [flattenValue, chainsValue]; exact flattenStrIdx_paths s.data 0 p
  | arr xs => rw [flattenValue, chainsValue]; exact flattenArrIdx_paths xs 0 p
  | obj fs => rw [flattenValue, chainsValue]; exact flattenFields_paths fs p

/-- Strings with equal character data are equal. -/
theorem str_ext {s t : String} (h : s.data = t.data) : s = t :=
  String.ext h

/-- Splitting at the first dot is unambiguous for dot-free prefixes
(character-list level). -/
theorem dot_split_data :
    ∀ (x y t u : List Char), (∀ c ∈ x, c ≠ '.') → (∀ c ∈ y, c ≠ '.') →
      x ++ '.' :: t = y ++ '.' :: u → x = y ∧ t = u := by
  intro x
  induction x with
  | nil =>
    intro y t u _ hy h
    cases y with
    | nil => simpa using h
    | cons d y' =>
      simp only [List.nil_append, List.cons_append, List.cons.injEq] at h
      exact absurd h.1.symm (hy d (by simp))
  | cons c x' ih =>
    intro y t u hx hy h
    cases y with
    | nil =>
      simp only [List.cons_append, List.nil_append, List.cons.injEq] at h
      exact absurd h.1 (hx c (by simp))
    | cons d y' =>
      simp only [List.cons_append, List.cons.injEq] at h
      obtain ⟨hcd, hrest⟩ := h
      have := ih y' t u (fun c hc => hx c (by simp [hc])) (fun c hc => hy c (by simp [hc])) hrest
      exact ⟨by simp [hcd, this.1], this.2⟩

/-- Splitting at the first dot is unambiguous for dot-free prefixes. -/
theorem dot_split (x y a b : String) (hx : dotFreeKey x = true) (hy : dotFreeKey y = true)
    (h : x ++ "." ++ a = y ++ "." ++ b) : x = y ∧ a = b := by
  have hdata : x.data ++ '.' :: a.data = y.data ++ '.' :: b.data := by
    have := congrArg String.data h
    simpa [String.data_append] using this
  have hx' : ∀ c ∈ x.data, c ≠ '.' := by
    intro c hc
    exact of_decide_eq_true (List.all_eq_true.mp hx c hc)
  have hy' : ∀ c ∈ y.data, c ≠ '.' := by
    intro c hc
    exact of_decide_eq_true (List.all_eq_true.mp hy c hc)
  obtain ⟨h1, h2⟩ := dot_split_data x.data y.data a.data b.data hx' hy' hdata
  exact ⟨str_ext h1, str_ext h2⟩

/-- A dot-free key never equals a longer dotted path built on another key. -/
theorem dotFree_ne_dotted (x y b : String) (hx : dotFreeKey x = true) :
    x ≠ y ++ "." ++ b := by
  intro h
  have hdata := congrArg String.data h
  simp only [String.data_append] at hdata
  have : '.' ∈ x.data := by
    rw [hdata]
    have : ('.' : Char) ∈ (".".data : List Char) := by decide
    simp [String.data, this]
  have := of_decide_eq_true (List.all_eq_true.mp hx '.' this)
  exact this rfl

/-- A string never equals itself extended by a dot segment. -/
theorem ne_self_dotted (x b : String) : x ≠ x ++ "." ++ b := by
  intro h
  have := congrArg (fun s : String => s.data.length) h
  simp [String.data_append] at this

/-- Decimal keys are dot-free. -/
theorem dotFreeKey_natKey (n : Nat) : dotFreeKey (natKey n) = true := by
  rw [dotFreeKey, natKey]
  rw [List.all_eq_true]
  intro c hc
  exact decide_eq_true (natKeyAux_no_dot n c hc)

/-- Appending after a fixed dotted prefix is injective. -/
theorem dotted_append_inj (p a b : String) (h : p ++ "." ++ a = p ++ "." ++ b) :
    a = b := by
  apply str_ext
  have := congrArg String.data h
  simp only [String.data_append] at this
  exact List.append_cancel_left this

/-- The empty chain never occurs among a walk's chains. -/
theorem nil_not_mem_chainsFields : ∀ fs, [] ∉ chainsFields fs := by
  intro fs
  induction fs using chainsFields.induct with
  | case1 => simp [chainsFields]
  | case2 k v rest ihv ihrest =>
    cases v <;> simp_all [chainsFields]

/-- `joinDots` of a nonempty chain headed by `k`. -/
theorem joinDots_cons (k : String) (t : List String) (ht : t ≠ []) :
    joinDots (k :: t) = k ++ "." ++ joinDots t := by
  cases t with
  | nil => exact absurd rfl ht
  | cons k2 ks => rw [joinDots]

/-- Shape of joined chains of a field walk: each starts with one of the
object's own keys. -/
theorem chainsFields_jd_shape :
    ∀ fs x, x ∈ (chainsFields fs).map joinDots →
      ∃ k, k ∈ fs.map Prod.fst ∧ (x = k ∨ ∃ y, x = k ++ "." ++ y) := by
  intro fs
  induction fs using chainsFields.induct with
  | case1 => simp [chainsFields]
  | case2 k v rest ihv ihrest =>
    intro x hx
    cases v with
    | obj gs =>
      simp only [chainsFields, List.cons_append, List.map_cons, List.map_append,
        List.mem_cons, List.mem_append, List.map_map] at hx
      rcases hx with hx | hx | hx
      · exact ⟨k, by simp, Or.inl (by simp [hx, joinDots])⟩
      · rcases List.mem_map.mp hx with ⟨ks, hks, hjd⟩
        have hne : ks ≠ [] := fun hnil => nil_not_mem_chainsFields gs (hnil ▸ hks)
        refine ⟨k, by simp, Or.inr ⟨joinDots ks, ?_⟩⟩
        rw [← hjd]
        simp only [Function.comp]
        exact joinDots_cons k ks hne
      · obtain ⟨k', hk', hsh⟩ := ihrest x (List.mem_map.mpr
          (by rcases List.mem_map.mp hx with ⟨ks, hks, hjd⟩; exact ⟨ks, hks, hjd⟩))
        exact ⟨k', by simp [hk'], hsh⟩
    | null =>
      simp only [chainsFields, List.cons_append, List.map_cons, List.mem_cons] at hx
      rcases hx with hx | hx
      · exact ⟨k, by simp, Or.inl (by simp [hx, joinDots])⟩
      · obtain ⟨k', hk', hsh⟩ := ihrest x hx
        exact ⟨k', by simp [hk'], hsh⟩
    | bool b =>
      simp only [chainsFields, List.cons_append, List.map_cons, List.mem_cons] at hx
      rcases hx with hx | hx
      · exact ⟨k, by simp, Or.inl (by simp [hx, joinDots])⟩
      · obtain ⟨k', hk', hsh⟩ := ihrest x hx
        exact ⟨k', by simp [hk'], hsh⟩
    | num n =>
      simp only [chainsFields, List.cons_append, List.map_cons, List.mem_cons] at hx
      rcases hx with hx | hx
      · exact ⟨k, by simp, Or.inl (by simp [hx, joinDots])⟩
      · obtain ⟨k', hk', hsh⟩ := ihrest x hx
        exact ⟨k', by simp [hk'], hsh⟩
    | str s =>
      simp only [chainsFields, List.cons_append, List.map_cons, List.mem_cons] at hx
      rcases hx with hx | hx
      · exact ⟨k, by simp, Or.inl (by simp [hx, joinDots])⟩
      · obtain ⟨k', hk', hsh⟩ := ihrest x hx
        exact ⟨k', by simp [hk'], hsh⟩
    | arr xs =>
      simp only [chainsFields, List.cons_append, List.map_cons, List.mem_cons] at hx
      rcases hx with hx | hx
      · exact ⟨k, by simp, Or.inl (by simp [hx, joinDots])⟩
      · obtain ⟨k', hk', hsh⟩ := ihrest x hx
        exact ⟨k', by simp [hk'], hsh⟩

/-- Joined chains of a well-keyed field walk are pairwise distinct. -/
theorem chainsFields_jd_nodup :
    ∀ fs, goodKeys (.obj fs) = true → ((chainsFields fs).map joinDots).Nodup := by
  intro fs
  induction fs using chainsFields.induct with
  | case1 => simp [chainsFields]
  | case2 k v rest ihv ihrest =>
    intro hg
    simp only [goodKeys, List.map_cons, distinctList, goodFields, Bool.and_eq_true,
      List.all_cons, Bool.not_eq_true', List.contains, List.elem_eq_mem,
      decide_eq_false_iff_not] at hg
    obtain ⟨⟨⟨hknotin, hdist⟩, hkdf, halldf⟩, hvgood, hrestgood⟩ := hg
    have hrest : ((chainsFields rest).map joinDots).Nodup := by
      apply ihrest
      simp only [goodKeys, Bool.and_eq_true]
      exact ⟨⟨by simpa [distinctList] using hdist, halldf⟩, hrestgood⟩
    have hshape := chainsFields_jd_shape rest
    have halldf' : ∀ k' ∈ rest.map Prod.fst, dotFreeKey k' = true := fun k' hk' =>
      List.all_eq_true.mp halldf k' hk'
    have hknotmem_jd : k ∉ (chainsFields rest).map joinDots := by
      intro hmem
      obtain ⟨k', hk'mem, hsh⟩ := hshape k hmem
      rcases hsh with heq | ⟨y, hy⟩
      · exact hknotin (heq ▸ hk'mem)
      · exact dotFree_ne_dotted k k' y hkdf hy
    cases v with
    | obj gs =>
      simp only at ihv
      simp only [chainsFields, List.cons_append, List.map_cons, List.map_append,
        List.map_map]
      rw [List.nodup_cons]
      have hsubeq : (chainsFields gs).map (joinDots ∘ fun ks => k :: ks) =
          ((chainsFields gs).map joinDots).map (fun y => k ++ "." ++ y) := by
        rw [List.map_map]
        apply List.map_congr_left
        intro ks hks
        simp only [Function.comp]
        exact joinDots_cons k ks (fun hnil => nil_not_mem_chainsFields gs (hnil ▸ hks))
      constructor
      · show joinDots [k] ∉ _
        have hjdk : joinDots [k] = k := rfl
        rw [hjdk]
        intro hmem
        rcases List.mem_append.mp hmem with hm | hm
        · rw [hsubeq] at hm
          obtain ⟨y, _, hy⟩ := List.mem_map.mp hm
          exact ne_self_dotted k y hy.symm
        · exact hknotmem_jd hm
      · apply List.Nodup.append
        · rw [hsubeq]
          apply List.Nodup.map
          · intro a b h
            exact dotted_append_inj k a b h
          · exact ihv hvgood
        · exact hrest
        · intro x hxsub hxrest
          rw [hsubeq] at hxsub
          obtain ⟨y, _, hy⟩ := List.mem_map.mp hxsub
          obtain ⟨k', hk'mem, hsh⟩ := hshape x hxrest
          rcases hsh with heq | ⟨y', hy'⟩
          · exact dotFree_ne_dotted k' k y (halldf' k' hk'mem) (heq ▸ hy.symm)
          · have := dot_split k k' y y' hkdf (halldf' k' hk'mem) (by rw [hy, hy'])
            exact hknotin (this.1 ▸ hk'mem)
    | null =>
      simp only [chainsFields, List.cons_append, List.nil_append, List.map_cons]
      exact List.nodup_cons.mpr ⟨by simpa [joinDots] using hknotmem_jd, hrest⟩
    | bool b =>
      simp only [chainsFields, List.cons_append, List.nil_append, List.map_cons]
      exact List.nodup_cons.mpr ⟨by simpa [joinDots] using hknotmem_jd, hrest⟩
    | num n =>
      simp only [chainsFields, List.cons_append, List.nil_append, List.map_cons]
      exact List.nodup_cons.mpr ⟨by simpa [joinDots] using hknotmem_jd, hrest⟩
    | str s =>
      simp only [chainsFields, List.cons_append, List.nil_append, List.map_cons]
      exact List.nodup_cons.mpr ⟨by simpa [joinDots] using hknotmem_jd, hrest⟩
    | arr xs =>
      simp only [chainsFields, List.cons_append, List.nil_append, List.map_cons]
      exact List.nodup_cons.mpr ⟨by simpa [joinDots] using hknotmem_jd, hrest⟩

/-- The empty chain never occurs among an array walk's chains. -/
theorem nil_not_mem_chainsArrIdx : ∀ xs i, [] ∉ chainsArrIdx xs i := by
  intro xs
  induction xs with
  | nil => simp [chainsArrIdx]
  | cons v rest ih =>
    intro i
    cases v <;> simp_all [chainsArrIdx]

/-- The empty chain never occurs among a string walk's chains. -/
theorem nil_not_mem_chainsStrIdx : ∀ cs i, [] ∉ chainsStrIdx cs i := by
  intro cs
  induction cs with
  | nil => simp [chainsStrIdx]
  | cons c rest ih => intro i; simp_all [chainsStrIdx]

/-- The empty chain never occurs among a value's chains. -/
theorem nil_not_mem_chainsValue : ∀ v, [] ∉ chainsValue v := by
  intro v
  cases v with
  | null => simp [chainsValue]
  | bool b => simp [chainsValue]
  | num n => simp [chainsValue]
  | str s => rw [chainsValue]; exact nil_not_mem_chainsStrIdx s.data 0
  | arr xs => rw [chainsValue]; exact nil_not_mem_chainsArrIdx xs 0
  | obj fs => rw [chainsValue]; exact nil_not_mem_chainsFields fs

/-- Shape of joined chains of an array walk: each starts with the decimal
key of one of the element indices. -/
theorem chainsArrIdx_jd_shape :
    ∀ xs i x, x ∈ (chainsArrIdx xs i).map joinDots →
      ∃ j, j < xs.length ∧ (x = natKey (i + j) ∨ ∃ y, x = natKey (i + j) ++ "." ++ y) := by
  intro xs
  induction xs with
  | nil => simp [chainsArrIdx]
  | cons v rest ih =>
    intro i x hx
    have hrestcase : x ∈ (chainsArrIdx rest (i + 1)).map joinDots →
        ∃ j, j < (v :: rest).length ∧
          (x = natKey (i + j) ∨ ∃ y, x = natKey (i + j) ++ "." ++ y) := by
      intro hm
      obtain ⟨j, hj, hsh⟩ := ih (i + 1) x hm
      refine ⟨j + 1, by simpa using Nat.succ_lt_succ hj, ?_⟩
      have : i + 1 + j = i + (j + 1) := by omega
      rw [← this]
      exact hsh
    cases v with
    | obj gs =>
      simp only [chainsArrIdx, List.cons_append, List.map_cons, List.map_append,
        List.mem_cons, List.mem_append, List.map_map] at hx
      rcases hx with hx | hx | hx
      · exact ⟨0, by simp, Or.inl (by simp [hx, joinDots])⟩
      · obtain ⟨ks, hks, hjd⟩ := List.mem_map.mp hx
        have hne : ks ≠ [] := fun hnil => nil_not_mem_chainsFields gs (hnil ▸ hks)
        refine ⟨0, by simp, Or.inr ⟨joinDots ks, ?_⟩⟩
        rw [← hjd]
        simp only [Function.comp]
        simpa using (joinDots_cons (natKey i) ks hne)
      · exact hrestcase (List.mem_map.mpr (List.mem_map.mp hx))
    | null =>
      simp only [chainsArrIdx, List.cons_append, List.nil_append, List.map_cons,
        List.mem_cons] at hx
      rcases hx with hx | hx
      · exact ⟨0, by simp, Or.inl (by simp [hx, joinDots])⟩
      · exact hrestcase hx
    | bool b =>
      simp only [chainsArrIdx, List.cons_append, List.nil_append, List.map_cons,
        List.mem_cons] at hx
      rcases hx with hx | hx
      · exact ⟨0, by simp, Or.inl (by simp [hx, joinDots])⟩
      · exact hrestcase hx
    | num n =>
      simp only [chainsArrIdx, List.cons_append, List.nil_append, List.map_cons,
        List.mem_cons] at hx
      rcases hx with hx | hx
      · exact ⟨0, by simp, Or.inl (by simp [hx, joinDots])⟩
      · exact hrestcase hx
    | str s =>
      simp only [chainsArrIdx, List.cons_append, List.nil_append, List.map_cons,
        List.mem_cons] at hx
      rcases hx with hx | hx
      · exact ⟨0, by simp, Or.inl (by simp [hx, joinDots])⟩
      · exact hrestcase hx
    | arr ys =>
      simp only [chainsArrIdx, List.cons_append, List.nil_append, List.map_cons,
        List.mem_cons] at hx
      rcases hx with hx | hx
      · exact ⟨0, by simp, Or.inl (by simp [hx, joinDots])⟩
      · exact hrestcase hx

/-- Joined chains of a well-keyed array walk are pairwise distinct. -/
theorem chainsArrIdx_jd_nodup :
    ∀ xs i, goodElems xs = true → ((chainsArrIdx xs i).map joinDots).Nodup := by
  intro xs
  induction xs with
  | nil => simp [chainsArrIdx]
  | cons v rest ih =>
    intro i hg
    simp only [goodElems, Bool.and_eq_true] at hg
    obtain ⟨hvgood, hrestgood⟩ := hg
    have hrest := ih (i + 1) hrestgood
    have hshape := chainsArrIdx_jd_shape rest (i + 1)
    have hkdf := dotFreeKey_natKey i
    have hknotmem_jd : natKey i ∉ (chainsArrIdx rest (i + 1)).map joinDots := by
      intro hmem
      obtain ⟨j, _, hsh⟩ := hshape (natKey i) hmem
      rcases hsh with heq | ⟨y, hy⟩
      · have := natKey_injective heq
        omega
      · exact dotFree_ne_dotted (natKey i) (natKey (i + 1 + j)) y hkdf hy
    cases v with
    | obj gs =>
      simp only [chainsArrIdx, List.cons_append, List.map_cons, List.map_append,
        List.map_map]
      rw [List.nodup_cons]
      have hsubeq : (chainsFields gs).map (joinDots ∘ fun ks => natKey i :: ks) =
          ((chainsFields gs).map joinDots).map (fun y => natKey i ++ "." ++ y) := by
        rw [List.map_map]
        apply List.map_congr_left
        intro ks hks
        simp only [Function.comp]
        exact joinDots_cons (natKey i) ks
          (fun hnil => nil_not_mem_chainsFields gs (hnil ▸ hks))
      constructor
      · show joinDots [natKey i] ∉ _
        have hjdk : joinDots [natKey i] = natKey i := rfl
        rw [hjdk]
        intro hmem
        rcases List.mem_append.mp hmem with hm | hm
        · rw [hsubeq] at hm
          obtain ⟨y, _, hy⟩ := List.mem_map.mp hm
          exact ne_self_dotted (natKey i) y hy.symm
        · exact hknotmem_jd hm
      · apply List.Nodup.append
        · rw [hsubeq]
          apply List.Nodup.map
          · intro a b h
            exact dotted_append_inj (natKey i) a b h
          · exact chainsFields_jd_nodup gs hvgood
        · exact hrest
        · intro x hxsub hxrest
          rw [hsubeq] at hxsub
          obtain ⟨y, _, hy⟩ := List.mem_map.mp hxsub
          obtain ⟨j, _, hsh⟩ := hshape x hxrest
          rcases hsh with heq | ⟨y', hy'⟩
          · exact dotFree_ne_dotted (natKey (i + 1 + j)) (natKey i) y
              (dotFreeKey_natKey _) (heq ▸ hy.symm)
          · have := dot_split (natKey i) (natKey (i + 1 + j)) y y' hkdf
              (dotFreeKey_natKey _) (by rw [hy, hy'])
            have := natKey_injective this.1
            omega
    | null =>
      simp only [chainsArrIdx, List.cons_append, List.nil_append, List.map_cons]
      exact List.nodup_cons.mpr ⟨by simpa [joinDots] using hknotmem_jd, hrest⟩
    | bool b =>
      simp only [chainsArrIdx, List.cons_append, List.nil_append, List.map_cons]
      exact List.nodup_cons.mpr ⟨by simpa [joinDots] using hknotmem_jd, hrest⟩
    | num n =>
      simp only [chainsArrIdx, List.cons_append, List.nil_append, List.map_cons]
      exact List.nodup_cons.mpr ⟨by simpa [joinDots] using hknotmem_jd, hrest⟩
    | str s =>
      simp only [chainsArrIdx, List.cons_append, List.nil_append, List.map_cons]
      exact List.nodup_cons.mpr ⟨by simpa [joinDots] using hknotmem_jd, hrest⟩
    | arr ys =>
      simp only [chainsArrIdx, List.cons_append, List.nil_append, List.map_cons]
      exact List.nodup_cons.mpr ⟨by simpa [joinDots] using hknotmem_jd, hrest⟩

/-- Shape of joined chains of a string walk. -/
theorem chainsStrIdx_jd_shape :
    ∀ cs i x, x ∈ (chainsStrIdx cs i).map joinDots →
      ∃ j, j < cs.length ∧ x = natKey (i + j) := by
  intro cs
  induction cs with
  | nil => simp [chainsStrIdx]
  | cons c rest ih =>
    intro i x hx
    simp only [chainsStrIdx, List.map_cons, List.mem_cons] at hx
    rcases hx with hx | hx
    · exact ⟨0, by simp, by simp [hx, joinDots]⟩
    · obtain ⟨j, hj, hsh⟩ := ih (i + 1) x hx
      refine ⟨j + 1, by simpa using Nat.succ_lt_succ hj, ?_⟩
      have : i + 1 + j = i + (j + 1) := by omega
      rw [← this]
      exact hsh

/-- Joined chains of a string walk are pairwise distinct. -/
theorem chainsStrIdx_jd_nodup :
    ∀ cs i, ((chainsStrIdx cs i).map joinDots).Nodup := by
  intro cs
  induction cs with
  | nil => simp [chainsStrIdx]
  | cons c rest ih =>
    intro i
    simp only [chainsStrIdx, List.map_cons]
    rw [List.nodup_cons]
    refine ⟨?_, ih (i + 1)⟩
    intro hmem
    obtain ⟨j, _, hsh⟩ := chainsStrIdx_jd_shape rest (i + 1) (joinDots [natKey i]) hmem
    have : natKey i = natKey (i + 1 + j) := by simpa [joinDots] using hsh
    have := natKey_injective this
    omega

/-- Joined chains of a well-keyed value are pairwise distinct. -/
theorem chainsValue_jd_nodup (v : JValue) (hg : goodKeys v = true) :
    ((chainsValue v).map joinDots).Nodup := by
  cases v with
  | null => simp [chainsValue]
  | bool b => simp [chainsValue]
  | num n => simp [chainsValue]
  | str s => rw [chainsValue]; exact chainsStrIdx_jd_nodup s.data 0
  | arr xs =>
    rw [chainsValue]
    exact chainsArrIdx_jd_nodup xs 0 (by simpa [goodKeys] using hg)
  | obj fs => rw [chainsValue]; exact chainsFields_jd_nodup fs hg

/-- A child path of a nonempty parent is nonempty. -/
theorem childPath_ne_empty {p : String} (k : String) (hp : p ≠ "") :
    childPath p k ≠ "" := by
  rw [childPath, if_pos hp]
  intro h
  have := congrArg String.data h
  simp [String.data_append] at this

/-- Joining a nonempty chain onto a nonempty parent is the dotted
concatenation. -/
theorem pathJoin_eq_joinDots :
    ∀ ks (p : String), ks ≠ [] → p ≠ "" → pathJoin p ks = p ++ "." ++ joinDots ks := by
  intro ks
  induction ks with
  | nil => intro p h _; exact absurd rfl h
  | cons k ks' ih =>
    intro p _ hp
    cases ks' with
    | nil =>
      rw [pathJoin_cons, joinDots]
      show childPath p k = _
      rw [childPath, if_pos hp]
    | cons k2 ks'' =>
      rw [pathJoin_cons, ih (childPath p k) (by simp) (childPath_ne_empty k hp)]
      rw [joinDots_cons k (k2 :: ks'') (by simp)]
      rw [childPath, if_pos hp]
      apply str_ext
      simp [String.data_append]

/-- The descriptor paths of one flattening pass over a well-keyed value and
a nonempty parent path are pairwise distinct. -/
theorem flattenValue_paths_nodup (v : JValue) (P : String)
    (hg : goodKeys v = true) (hP : P ≠ "") :
    ((flattenValue v P).map (fun d => d.path)).Nodup := by
  rw [flattenValue_paths]
  have heq : (chainsValue v).map (pathJoin P) =
      ((chainsValue v).map joinDots).map (fun y => P ++ "." ++ y) := by
    rw [List.map_map]
    apply List.map_congr_left
    intro ks hks
    simp only [Function.comp]
    exact pathJoin_eq_joinDots ks P (fun hnil => nil_not_mem_chainsValue v (hnil ▸ hks)) hP
  rw [heq]
  exact List.Nodup.map (fun a b h => dotted_append_inj P a b h) (chainsValue_jd_nodup v hg)

/-- A field walk is empty only for an empty field list. -/
theorem flattenFields_eq_nil_iff (fs : List (String × JValue)) (p : String) :
    flattenFields fs p = [] ↔ fs = [] := by
  cases fs with
  | nil => simp [flattenFields]
  | cons kv rest =>
    obtain ⟨k, v⟩ := kv
    cases v <;> simp [flattenFields]

/-- An array walk is empty only for an empty element list. -/
theorem flattenArrIdx_eq_nil_iff (xs : List JValue) (i : Nat) (p : String) :
    flattenArrIdx xs i p = [] ↔ xs = [] := by
  cases xs with
  | nil => simp [flattenArrIdx]
  | cons v rest => cases v <;> simp [flattenArrIdx]

/-- A string walk is empty only for an empty character list. -/
theorem flattenStrIdx_eq_nil_iff (cs : List Char) (i : Nat) (p : String) :
    flattenStrIdx cs i p = [] ↔ cs = [] := by
  cases cs <;> simp [flattenStrIdx]

/-- A value's walk is empty exactly when the value has no enumerable keys. -/
theorem flattenValue_eq_nil_iff (v : JValue) (p : String) :
    flattenValue v p = [] ↔ enumKeys v = [] := by
  cases v with
  | null => simp [flattenValue, enumKeys]
  | bool b => simp [flattenValue, enumKeys]
  | num n => simp [flattenValue, enumKeys]
  | str s =>
    rw [flattenValue, enumKeys, flattenStrIdx_eq_nil_iff]
    rw [List.map_eq_nil_iff, List.range_eq_nil]
    have hlen : s.length = s.data.length := rfl
    rw [hlen, List.length_eq_zero]
  | arr xs =>
    rw [flattenValue, enumKeys, flattenArrIdx_eq_nil_iff]
    rw [List.map_eq_nil_iff, List.range_eq_nil, List.length_eq_zero]
  | obj fs =>
    rw [flattenValue, enumKeys]
    rw [flattenFields_eq_nil_iff]
    simp

/-- C3 counterexample: the empty object is neither `null` nor `undefined`,
yet `flattenObjectToSchema` returns the empty sequence for it (it has no
enumerable keys), refuting "empty iff null/undefined". -/
theorem C3_counterexample :
    flattenObjectToSchema (some (.obj [])) "N" = [] ∧
    (some (JValue.obj []) ≠ none) := by
  constructor
  · rw [flattenObjectToSchema]
    exact (flattenValue_eq_nil_iff (.obj []) "N").mpr (by simp [enumKeys])
  · simp

/-- C3 (amended): `flatten` of `undefined` is empty; `flatten` of a value is
empty exactly when the value has no enumerable own keys (`null`, scalars,
the empty object/array/string) — not only for null/undefined; and for a
well-keyed value under a nonempty parent path, the walk is nonempty and
every descriptor's path (leaf scalars included) occurs exactly once and
extends the parent path. -/
theorem C3_flatten_empty_and_unique :
    (∀ P, flattenObjectToSchema none P = []) ∧
    (∀ v P, flattenObjectToSchema (some v) P = [] ↔ enumKeys v = []) ∧
    (∀ v P, goodKeys v = true → P ≠ "" → enumKeys v ≠ [] →
      flattenValue v P ≠ [] ∧
      ∀ d ∈ flattenValue v P,
        ((flattenValue v P).map (fun e => e.path)).count d.path = 1 ∧
        ∃ t, d.path.data = P.data ++ t) := by
  refine ⟨fun P => rfl, fun v P => by rw [flattenObjectToSchema]; exact flattenValue_eq_nil_iff v P, ?_⟩
  intro v P hg hP hkeys
  constructor
  · intro h
    exact hkeys ((flattenValue_eq_nil_iff v P).mp h)
  · intro d hd
    have hnodup := flattenValue_paths_nodup v P hg hP
    have hmem : d.path ∈ (flattenValue v P).map (fun e => e.path) :=
      List.mem_map.mpr ⟨d, hd, rfl⟩
    refine ⟨List.count_eq_one_of_mem hnodup hmem, ?_⟩
    rw [flattenValue_paths] at hmem
    obtain ⟨ks, hks, hjoin⟩ := List.mem_map.mp hmem
    have hne : ks ≠ [] := fun hnil => nil_not_mem_chainsValue v (hnil ▸ hks)
    rw [← hjoin, pathJoin_eq_joinDots ks P hne hP]
    exact ⟨'.' :: (joinDots ks).data, by simp [String.data_append]⟩

/-- Witness for the amended C3 on a two-level object under path `N`. -/
theorem C3_flatten_empty_and_unique_witness :
    goodKeys (.obj [("a", .obj [("b", .num 1)]), ("c", .num 2)]) = true ∧
    enumKeys (.obj [("a", .obj [("b", .num 1)]), ("c", .num 2)]) ≠ [] ∧
    flattenValue (.obj [("a", .obj [("b", .num 1)]), ("c", .num 2)]) "N" ≠ [] := by
  have hg : goodKeys (.obj [("a", .obj [("b", .num 1)]), ("c", .num 2)]) = true := by
    simp +decide [goodKeys, goodFields, distinctList, dotFreeKey]
  have hk : enumKeys (.obj [("a", .obj [("b", .num 1)]), ("c", .num 2)]) ≠ [] := by
    simp [enumKeys]
  exact ⟨hg, hk,
    (C3_flatten_empty_and_unique.2.2 _ "N" hg (by decide) hk).1⟩

/-- C4 counterexample: with a key that itself contains a dot, two distinct
entries of a legitimate object (`keys "a"` and `"a.b"` are different)
produce the same descriptor path `N.a.b`, so paths are not pairwise
distinct for arbitrary string keys. -/
theorem C4_counterexample :
    (flattenValue (.obj [("a", .obj [("b", .num 1)]), ("a.b", .num 2)]) "N").map
      (fun d => d.path) = ["N.a", "N.a.b", "N.a.b"] ∧
    ¬ ((flattenValue (.obj [("a", .obj [("b", .num 1)]), ("a.b", .num 2)]) "N").map
      (fun d => d.path)).Nodup := by
  have h : (flattenValue (.obj [("a", .obj [("b", .num 1)]), ("a.b", .num 2)]) "N").map
      (fun d => d.path) = ["N.a", "N.a.b", "N.a.b"] := by
    simp +decide [flattenValue, flattenFields, mkItem, childPath]
  refine ⟨h, ?_⟩
  rw [h]
  decide

/-- C4 (amended): every descriptor path is the parent path joined with the
chain of nested keys via `.` — and the paths of one pass are pairwise
distinct provided no key contains a dot, each object's keys are distinct,
and the parent path is nonempty (as every `DataNode` name is). -/
theorem C4_paths_unique_and_joined (v : JValue) (P : String) :
    ((flattenValue v P).map (fun d => d.path) = (chainsValue v).map (pathJoin P)) ∧
    (goodKeys v = true → P ≠ "" → ((flattenValue v P).map (fun d => d.path)).Nodup) :=
  ⟨flattenValue_paths v P, fun hg hP => flattenValue_paths_nodup v P hg hP⟩

/-- Witness for the amended C4. -/
theorem C4_paths_unique_and_joined_witness :
    goodKeys (.obj [("a", .obj [("b", .num 1)]), ("c", .num 2)]) = true ∧
    ("N" : String) ≠ "" ∧
    ((flattenValue (.obj [("a", .obj [("b", .num 1)]), ("c", .num 2)]) "N").map
      (fun d => d.path)).Nodup := by
  have hg : goodKeys (.obj [("a", .obj [("b", .num 1)]), ("c", .num 2)]) = true := by
    simp +decide [goodKeys, goodFields, distinctList, dotFreeKey]
  exact ⟨hg, by decide,
    (C4_paths_unique_and_joined (.obj [("a", .obj [("b", .num 1)]), ("c", .num 2)]) "N").2
      hg (by decide)⟩

/-- C5: the flattening of an object is the in-order concatenation, over its
fields, of the field's own descriptor followed immediately by the field's
full recursive expansion (pre-order, depth-first; siblings in enumeration
order) — and an array-valued field contributes exactly its own descriptor,
never being recursed into. -/
theorem C5_preorder_flatten :
    (∀ fs p, flattenValue (.obj fs) p = fs.flatMap (fun kv =>
      mkItem p kv.1 kv.2 :: (match kv.2 with
        | .obj gs => flattenValue (.obj gs) (childPath p kv.1)
        | _ => []))) ∧
    (∀ p k xs rest, flattenValue (.obj ((k, .arr xs) :: rest)) p =
      mkItem p k (.arr xs) :: flattenValue (.obj rest) p) := by
  constructor
  · intro fs p
    rw [flattenValue]
    induction fs with
    | nil => simp [flattenFields]
    | cons kv rest ih =>
      obtain ⟨k, v⟩ := kv
      cases v with
      | obj gs =>
        rw [flattenFields, List.flatMap_cons, ← ih]
        simp [flattenValue]
      | null => simp only [flattenFields]; rw [List.flatMap_cons, ← ih]; simp
      | bool b => simp only [flattenFields]; rw [List.flatMap_cons, ← ih]; simp
      | num n => simp only [flattenFields]; rw [List.flatMap_cons, ← ih]; simp
      | str s => simp only [flattenFields]; rw [List.flatMap_cons, ← ih]; simp
      | arr xs => simp only [flattenFields]; rw [List.flatMap_cons, ← ih]; simp
  · intro p k xs rest
    rw [flattenValue, flattenValue]
    simp [flattenFields]

/-- C7 counterexample: a `null`-valued entry is classified with type tag
`null` (neither object nor array), yet its `value` field is not the scalar
itself but the serialized-and-ellipsized preview `null...`, because
JavaScript `typeof null` is `"object"`. -/
theorem C7_counterexample :
    (flattenValue (.obj [("a", JValue.null)]) "N").map (fun d => d.value) =
      [JValue.str "null..."] ∧
    (flattenValue (.obj [("a", JValue.null)]) "N").map (fun d => d.type) = ["null"] ∧
    JValue.str "null..." ≠ JValue.null := by
  refine ⟨?_, ?_, by simp⟩
  · simp +decide [flattenValue, flattenFields, mkItem, previewValue, jsTypeof,
      dataTypeOf, jsonStringify]
  · simp +decide [flattenValue, flattenFields, mkItem, dataTypeOf, jsTypeof]

/-- C7 (amended): the first descriptor a field walk emits for an entry
carries exactly these fields: the joined path, the key, the `DataType`
classification, and — whenever the runtime `typeof` of the entry's value is
`object` (true for objects, arrays AND `null`) — a preview built from the
first 20 characters of its compact JSON serialization with `...` appended
unconditionally; any other (scalar) entry carries the value itself. -/
theorem C7_preview_values (p k : String) (w : JValue) (rest : List (String × JValue)) :
    (flattenValue (.obj ((k, w) :: rest)) p).head? = some
      { path := childPath p k
        key := k
        type := dataTypeOf w
        value := if jsTypeof w = "object"
          then JValue.str (⟨(jsonStringify w).data.take 20⟩ ++ "...") else w
        isExpandable := dataTypeOf w = "object" ∨ dataTypeOf w = "array"
        description := none
        usage := none } := by
  cases w <;> simp [flattenValue, flattenFields, mkItem, previewValue]

/-- C6 counterexample: the empty string cannot be parsed as a date, yet
`formatDate` returns empty text for it (the `!date` guard fires first), not
the literal `Invalid Date` the claim requires. -/
theorem C6_counterexample :
    formatDate emptyStringDate defaultDateFormat = "" ∧
    ("" : String) ≠ "Invalid Date" ∧ emptyStringDate.parsed = none := by
  refine ⟨rfl, by decide, rfl⟩

/-- C6 (amended): `formatDate` never raises and behaves as follows — falsy
input yields empty text (the case the claim missed); non-falsy unparseable
input yields the literal `Invalid Date`; a parsed date has the six tokens of
the pattern substituted with zero-padded components, the pattern defaulting
to `YYYY-MM-DD`. -/
theorem C6_formatDate_behavior (d : JSDateInput) :
    (d.falsy = true → ∀ fmt, formatDate d fmt = "") ∧
    (d.falsy = false → d.parsed = none → ∀ fmt, formatDate d fmt = "Invalid Date") ∧
    (∀ parts, d.falsy = false → d.parsed = some parts →
      formatDate d defaultDateFormat =
        Nat.repr parts.year ++ "-" ++ pad2 (parts.month0 + 1) ++ "-" ++ pad2 parts.day ∧
      formatDate d "YYYY-MM-DD HH:mm:ss" =
        Nat.repr parts.year ++ "-" ++ pad2 (parts.month0 + 1) ++ "-" ++ pad2 parts.day
          ++ " " ++ pad2 parts.hours ++ ":" ++ pad2 parts.minutes ++ ":"
          ++ pad2 parts.seconds) := by
  refine ⟨fun hf fmt => by simp [formatDate, hf], fun hf hp fmt => by simp [formatDate, hf, hp], ?_⟩
  intro parts hf hp
  constructor
  · rw [formatDate]
    simp only [hf, Bool.false_eq_true, if_false, hp]
    apply str_ext
    simp +decide [tokenReplace, String.data_append, defaultDateFormat]
  · rw [formatDate]
    simp only [hf, Bool.false_eq_true, if_false, hp]
    apply str_ext
    simp +decide [tokenReplace, String.data_append]

/-- Witness for the amended C6 at the spec's example date
`2023-11-15T14:30:00`. -/
theorem C6_formatDate_behavior_witness :
    formatDate ⟨false, some ⟨2023, 10, 15, 14, 30, 0⟩⟩ defaultDateFormat = "2023-11-15" ∧
    formatDate ⟨false, some ⟨2023, 10, 15, 14, 30, 0⟩⟩ "YYYY-MM-DD HH:mm:ss" =
      "2023-11-15 14:30:00" := by
  have h := (C6_formatDate_behavior ⟨false, some ⟨2023, 10, 15, 14, 30, 0⟩⟩).2.2
    ⟨2023, 10, 15, 14, 30, 0⟩ rfl rfl
  refine ⟨?_, ?_⟩
  · rw [h.1]; decide
  · rw [h.2]; decide

/-- C8: the catalog lists one descriptor per `FORMATTERS` entry, all of them
before any node-derived descriptor, followed by the flattener output of each
node in input order; its total size is the registry size plus the summed
flattener output sizes. -/
theorem C8_catalog_order_and_count (nodes : List WorkflowNode) :
    generateAutocompleteOptions nodes =
      formatterNames.map functionDescriptor ++
        ((nodes.flatMap (fun node => flattenObjectToSchema (some node.data) node.name)).map
          enrichVariable) ∧
    (formatterNames.map functionDescriptor).length = formatterNames.length ∧
    (generateAutocompleteOptions nodes).length =
      formatterNames.length +
        (nodes.map (fun node => (flattenObjectToSchema (some node.data) node.name).length)).sum := by
  refine ⟨rfl, List.length_map _ _, ?_⟩
  rw [generateAutocompleteOptions]
  simp only [List.length_append, List.length_map, List.length_flatMap]
  rfl

/-- Lookup after in-place overwrite of an existing key. -/
theorem getProp_map_set (k : String) (v : CtxVal) :
    ∀ ctx : List (String × CtxVal), ctx.any (fun kv => kv.1 = k) = true →
      getProp (ctx.map (fun kv => if kv.1 = k then (k, v) else kv)) k = some v := by
  intro ctx
  induction ctx with
  | nil => intro h; simp at h
  | cons a rest ih =>
    intro h
    by_cases ha : a.1 = k
    · simp [getProp, List.find?, ha]
    · have h' : (rest.any fun kv => decide (kv.1 = k)) = true := by
        simp only [List.any_cons, Bool.or_eq_true] at h
        rcases h with h | h
        · exact absurd (of_decide_eq_true h) ha
        · exact h
      rw [getProp] at ih ⊢
      simp only [List.map_cons, if_neg ha, List.find?, decide_eq_false ha]
      exact ih h'

/-- Lookup after appending a fresh key. -/
theorem getProp_append_set (k : String) (v : CtxVal) :
    ∀ ctx : List (String × CtxVal), ctx.any (fun kv => kv.1 = k) = false →
      getProp (ctx ++ [(k, v)]) k = some v := by
  intro ctx
  induction ctx with
  | nil => intro _; simp [getProp, List.find?]
  | cons a rest ih =>
    intro h
    simp only [List.any_cons, Bool.or_eq_false_iff] at h
    obtain ⟨ha, hrest⟩ := h
    have ha' : ¬a.1 = k := of_decide_eq_false ha
    rw [getProp] at ih ⊢
    simp only [List.cons_append, List.find?, decide_eq_false ha']
    exact ih hrest

/-- Assignment then lookup of the same key. -/
theorem getProp_setProp_same (ctx : List (String × CtxVal)) (k : String) (v : CtxVal) :
    getProp (setProp ctx k v) k = some v := by
  rw [setProp]
  by_cases hany : ctx.any (fun kv => kv.1 = k) = true
  · rw [if_pos hany]
    exact getProp_map_set k v ctx hany
  · rw [if_neg hany]
    have hfalse : ctx.any (fun kv => kv.1 = k) = false := Bool.eq_false_iff.mpr hany
    exact getProp_append_set k v ctx hfalse

/-- Assignment of a different key leaves a lookup unchanged. -/
theorem getProp_setProp_other (ctx : List (String × CtxVal)) (k' k : String) (v : CtxVal)
    (hne : k' ≠ k) : getProp (setProp ctx k' v) k = getProp ctx k := by
  rw [setProp]
  by_cases hany : ctx.any (fun kv => kv.1 = k') = true
  · rw [if_pos hany]
    clear hany
    induction ctx with
    | nil => simp
    | cons a rest ih =>
      by_cases ha : a.1 = k'
      · have hak : ¬a.1 = k := fun hh => hne (ha ▸ hh ▸ rfl)
        have hkk : ¬(k' : String) = k := hne
        rw [getProp, getProp]
        simp only [List.map_cons, if_pos ha, List.find?, decide_eq_false hak,
          decide_eq_false hkk]
        exact ih
      · rw [getProp, getProp] at ih ⊢
        simp only [List.map_cons, if_neg ha, List.find?]
        cases hd : decide (a.1 = k) with
        | true => simp
        | false => simpa using ih
  · rw [if_neg hany]
    clear hany
    induction ctx with
    | nil => simp [getProp, List.find?, decide_eq_false hne]
    | cons a rest ih =>
      rw [getProp, getProp] at ih ⊢
      simp only [List.cons_append, List.find?]
      cases hd : decide (a.1 = k) with
      | true => simp
      | false => simpa using ih

/-- A key outside the folded assignment list keeps its binding. -/
theorem getProp_fold_not_mem (k : String) :
    ∀ (ks : List String) (ctx : List (String × CtxVal)), k ∉ ks →
      getProp (ks.foldl (fun c f => setProp c f (.fn f)) ctx) k = getProp ctx k := by
  intro ks
  induction ks with
  | nil => intro ctx _; rfl
  | cons f rest ih =>
    intro ctx hk
    rw [List.foldl_cons]
    rw [ih (setProp ctx f (.fn f)) (fun hm => hk (List.mem_cons_of_mem _ hm))]
    exact getProp_setProp_other ctx f k (.fn f) (fun hh => hk (hh ▸ List.mem_cons_self f rest))

/-- After folding the registry assignments, every registry name maps to its
function. -/
theorem getProp_fold_mem (k : String) :
    ∀ (ks : List String) (ctx : List (String × CtxVal)), k ∈ ks →
      getProp (ks.foldl (fun c f => setProp c f (.fn f)) ctx) k = some (.fn k) := by
  intro ks
  induction ks with
  | nil => intro ctx h; simp at h
  | cons f rest ih =>
    intro ctx hk
    rw [List.foldl_cons]
    by_cases hmem : k ∈ rest
    · exact ih _ hmem
    · have hf : k = f := by
        rcases List.mem_cons.mp hk with h | h
        · exact h
        · exact absurd h hmem
      subst hf
      rw [getProp_fold_not_mem k rest _ hmem]
      exact getProp_setProp_same ctx k (.fn k)

/-- C9: in the evaluation context, registry functions are bound after (and
therefore over) the node roots: any node whose name collides with a
built-in function name is shadowed — the context resolves the name to the
function, whatever the node order and data. -/
theorem C9_functions_shadow_nodes (nodes : List WorkflowNode) (name : String)
    (h : name ∈ formatterNames) :
    getProp (buildEvaluationContext nodes) name = some (.fn name) := by
  rw [buildEvaluationContext]
  exact getProp_fold_mem name formatterNames _ h

/-- Witness for C9: a node literally named `json` cannot be reached — the
context maps `json` to the built-in function, not to the node's data. -/
theorem C9_functions_shadow_nodes_witness :
    getProp (buildEvaluationContext
      [⟨"1", "json", "default", .obj [("secret", .num 1)]⟩]) "json" =
      some (.fn "json") ∧
    CtxVal.fn "json" ≠ CtxVal.data (.obj [("secret", .num 1)]) :=
  ⟨C9_functions_shadow_nodes [⟨"1", "json", "default", .obj [("secret", .num 1)]⟩]
      "json" (by decide),
    by simp⟩

end NEd
